import Mathlib

/-!
Verification of the rss-feed-wrangler core transform.

The repository's core is the paragraph-splitting / content-type-detection
logic (`src/utils/text-splitter.ts`) and the feed-rewriting transformation
(`src/utils/feed-processor.ts`, `processAtomFeed`).  Text is modelled as
`List Char`; the JavaScript regular expressions used by the source are
embedded as executable scanning functions with the engine's leftmost-match,
lazy/greedy semantics spelled out.  The XML parse/serialize collaborator
(xml2js, configured with `trim: true`, `explicitArray: false` and a
CDATA-emitting builder with a UTF-8 declaration) is modelled from the spec.
-/

namespace FeedWrangler

/-- Whitespace as trimmed by JavaScript `String.prototype.trim`, restricted to
the ASCII range that can occur in feed text: space, tab, LF, CR, VT, FF. -/
def jsWS (c : Char) : Bool :=
  c = ' ' || c = '\t' || c = '\n' || c = '\r' || c = Char.ofNat 11 || c = Char.ofNat 12

/-- JavaScript `text.trim()`. -/
def jsTrim (l : List Char) : List Char :=
  ((l.dropWhile jsWS).reverse.dropWhile jsWS).reverse

/-- JavaScript `text.replace(/\r\n/g, "\n")`: CR-LF to LF normalization. -/
def normalizeCRLF : List Char → List Char
  | '\r' :: '\n' :: rest => '\n' :: normalizeCRLF rest
  | c :: rest => c :: normalizeCRLF rest
  | [] => []

/-- Index of the first `>` character, if any. -/
def findGt : List Char → Option Nat
  | [] => none
  | c :: rest => if c = '>' then some 0 else (findGt rest).map (· + 1)

/-- Case-insensitive prefix test (ASCII case folding, as with the regex `i` flag). -/
def startsWithCI : List Char → List Char → Bool
  | [], _ => true
  | _ :: _, [] => false
  | p :: ps, c :: cs => (Char.toLower c = Char.toLower p) && startsWithCI ps cs

/-- Case-insensitive suffix test. -/
def endsWithCI (pat l : List Char) : Bool :=
  startsWithCI pat.reverse l.reverse

/-- Index of the first position whose suffix starts (case-insensitively) with `pat`. -/
def findCI (pat : List Char) : List Char → Option Nat
  | [] => if startsWithCI pat [] then some 0 else none
  | c :: rest =>
    if startsWithCI pat (c :: rest) then some 0
    else (findCI pat rest).map (· + 1)

/-- The closing paragraph tag pattern `</p>`. -/
def closePPat : List Char := '<' :: '/' :: 'p' :: '>' :: []

/-- Attempt to match `/<p[^>]*>([\s\S]*?)<\/p>/i` anchored at the head of `l`,
returning the total match length.  The opening tag runs to the first `>`
(the greedy `[^>]*` cannot cross one) and the lazy inner group stops at the
first case-insensitive `</p>` after it. -/
def tryPMatchAt : List Char → Option Nat
  | '<' :: c :: rest =>
    if Char.toLower c = 'p' then
      match findGt rest with
      | none => none
      | some j =>
        match findCI closePPat (rest.drop (j + 1)) with
        | none => none
        | some k => some (2 + (j + 1) + k + 4)
    else none
  | _ => none

/-- `normalized.match(/<p[^>]*>([\s\S]*?)<\/p>/i)`: leftmost match of the
paragraph-element regex, returned as (start index, length). -/
def pMatch : List Char → Option (Nat × Nat)
  | [] => none
  | c :: rest =>
    match tryPMatchAt (c :: rest) with
    | some n => some (0, n)
    | none => (pMatch rest).map (fun p => (p.1 + 1, p.2))

/-- Fuelled worker for `splitNN`; the fuel only serves the termination
argument and any fuel above the input length is enough. -/
def splitNNF : Nat → List Char → List (List Char)
  | 0, _ => [[]]
  | fuel + 1, l =>
    match l with
    | [] => [[]]
    | '\n' :: '\n' :: rest => [] :: splitNNF fuel (rest.dropWhile (· = '\n'))
    | c :: rest =>
      match splitNNF fuel rest with
      | [] => [[c]]
      | part :: parts => (c :: part) :: parts

/-- JavaScript `normalized.split(/\n\n+/)`: split on maximal runs of two or
more consecutive newlines. -/
def splitNN (l : List Char) : List (List Char) :=
  splitNNF (l.length + 1) l

/-- `splitAtFirstParagraph` from `src/utils/text-splitter.ts`: empty or
whitespace-only input is returned as-is; otherwise CR-LF is normalized, the
first HTML paragraph element is used as the boundary when present, with a
blank-line split as fallback and the whole trimmed text as last resort. -/
def splitAtFirstParagraph (text : List Char) : List Char × List Char :=
  if jsTrim text = [] then (text, [])
  else
    let normalized := normalizeCRLF text
    match pMatch normalized with
    | some (i, n) =>
      (jsTrim ((normalized.drop i).take n), jsTrim (normalized.drop (i + n)))
    | none =>
      match splitNN normalized with
      | [] => (jsTrim text, [])
      | part :: parts =>
        if parts = [] then (jsTrim text, [])
        else (jsTrim part, jsTrim (List.intercalate ['\n', '\n'] parts))

/-- Fuelled worker for `stripTags`; any fuel above the input length is
enough. -/
def stripTagsF : Nat → List Char → List Char
  | 0, l => l
  | fuel + 1, l =>
    match l with
    | [] => []
    | '<' :: rest =>
      (match findGt rest with
       | some j => stripTagsF fuel (rest.drop (j + 1))
       | none => '<' :: stripTagsF fuel rest)
    | c :: rest => c :: stripTagsF fuel rest

/-- One global-replace pass of `text.replace(/<[^>]*>/g, "")`: every `<` with a
later `>` is deleted together with everything up to that first `>`. -/
def stripTags (l : List Char) : List Char :=
  stripTagsF (l.length + 1) l

/-- `stripHtmlTags` from `src/utils/text-splitter.ts`: remove every
angle-bracket-delimited tag, then trim. -/
def stripHtmlTags (text : List Char) : List Char :=
  jsTrim (stripTags text)

/-- The three content-type labels returned by `detectContentType`. -/
inductive CType where
  | text
  | html
  | xhtml
deriving DecidableEq, Repr

/-- The string form of a content-type label, as written into the `type` attribute. -/
def CType.label : CType → List Char
  | .text => 't' :: 'e' :: 'x' :: 't' :: []
  | .html => 'h' :: 't' :: 'm' :: 'l' :: []
  | .xhtml => 'x' :: 'h' :: 't' :: 'm' :: 'l' :: []

/-- ASCII letter test, as matched by `[a-z]` under the regex `i` flag. -/
def isAsciiLetter (c : Char) : Bool :=
  ('a' ≤ c && c ≤ 'z') || ('A' ≤ c && c ≤ 'Z')

/-- `trimmed.match(/^<div[^>]*>[\s\S]*<\/div>$/i)` as a Boolean test: the text
starts with a `<div...>` opening tag (first `>` closes it) and ends with
`</div>`, the closing tag lying strictly after the opening one. -/
def xhtmlCheck (t : List Char) : Bool :=
  startsWithCI ('<' :: 'd' :: 'i' :: 'v' :: []) t &&
  (match findGt (t.drop 4) with
   | some j =>
     decide (4 + (j + 1) + 6 ≤ t.length) &&
     endsWithCI ('<' :: '/' :: 'd' :: 'i' :: 'v' :: '>' :: []) t
   | none => false)

/-- `trimmed.match(/<[a-z]+[^>]*>/i)` as a Boolean test: somewhere an `<` is
followed by an ASCII letter with a `>` appearing later. -/
def htmlCheck : List Char → Bool
  | [] => false
  | '<' :: rest =>
    (match rest with
     | c :: rest2 => (isAsciiLetter c && (findGt rest2).isSome) || htmlCheck (c :: rest2)
     | [] => false)
  | _ :: rest => htmlCheck rest

/-- `detectContentType` from `src/utils/text-splitter.ts`. -/
def detectContentType (content : List Char) : CType :=
  let trimmed := jsTrim content
  if xhtmlCheck trimmed then .xhtml
  else if htmlCheck trimmed then .html
  else .text

/-! ## The feed tree

`processAtomFeed` manipulates the object tree produced by xml2js
(`trim: true`, `explicitArray: false`).  An entry/item is modelled by the
fields the transform reads or writes plus an opaque remainder; a generic
XML node type carries everything the transform never looks at. -/

/-- A generic XML tree node (CDATA sections are parsed into plain text,
as xml2js does). -/
inductive Xml where
  | elem (tag : List Char) (attrs : List (List Char × List Char)) (children : List Xml)
  | txt (s : List Char)
deriving Repr

/-- The xml2js value of a descriptive child element as the transform sees it:
a plain string when the element is attribute-less with no element children,
or the `{_, $}` object form otherwise (the whole original node is kept so
untouched fields round-trip).  Arrays - repeated child elements - are outside
the model; the first occurrence is kept. -/
inductive FieldVal where
  | str (s : List Char)
  | obj (raw : Xml)
deriving Repr

/-- JavaScript truthiness of a field value: the empty string is falsy, every
object is truthy. -/
def FieldVal.truthy : FieldVal → Bool
  | .str s => !s.isEmpty
  | .obj _ => true

/-- The `typeof` ladder of `processAtomFeed` (part_003 lines 57-62 and
113-118): a string passes through, the object form yields the empty source
text (arrays, not modelled, would be indexed at 0). -/
def FieldVal.srcText : FieldVal → List Char
  | .str s => s
  | .obj _ => []

/-- A `content` element: either the parsed original node (untouched by the
transform) or the `{_: body, $: {type}}` form the transform writes. -/
inductive ContentNode where
  | parsed (raw : Xml)
  | written (body : List Char) (tyLabel : List Char)
deriving Repr

/-- An Atom `entry` or RSS `item` as seen by `processAtomFeed`: the fields the
transform touches, the element's attributes, and all remaining children in
order. -/
structure Entry where
  summary : Option FieldVal
  description : Option FieldVal
  content : Option ContentNode
  contentEncoded : Option FieldVal
  attrs : List (List Char × List Char)
  rest : List Xml
deriving Repr

/-- The parsed feed document as probed by `processAtomFeed`: `feed.feed`
present (Atom), `feed.rss.channel` present (RSS), or anything else.  An RSS
variant with an empty item list models a channel with no `item` key, for
which the code's `feed.rss?.channel?.item` probe is falsy. -/
inductive FeedDoc where
  | atom (attrs : List (List Char × List Char)) (entries : List Entry) (rest : List Xml)
  | rss (attrs chanAttrs : List (List Char × List Char)) (items : List Entry)
      (chanRest rssRest : List Xml)
  | other (root : Xml)
deriving Repr

/-- A parsed document that is neither Atom nor RSS-with-items: the code's
`isAtom` and `isRss` probes are both falsy, so both rewriting branches are
skipped and the tree is re-serialized unmodified. -/
def unknownDialect : FeedDoc → Bool
  | .atom _ _ _ => false
  | .rss _ _ items _ _ => items.isEmpty
  | .other _ => true

/-- JavaScript truthiness of an optional field: falsy when absent, the empty
string, and nothing else. -/
def strFalsy : Option FieldVal → Bool
  | none => true
  | some v => !v.truthy

/-- First value bound to key `k` in an attribute list. -/
def getKey (k : List Char) : List (List Char × List Char) → Option (List Char)
  | [] => none
  | (k', v') :: rest => if k' = k then some v' else getKey k rest

/-- JavaScript object assignment `attrs[k] = v`: replace the first binding of
`k`, or append a new one. -/
def setKey (k v : List Char) : List (List Char × List Char) → List (List Char × List Char)
  | [] => [(k, v)]
  | (k', v') :: rest => if k' = k then (k', v) :: rest else (k', v') :: setKey k v rest

/-- The RSS content-module namespace URI written by the transform. -/
def contentNsUri : List Char := "http://purl.org/rss/1.0/modules/content/".data

/-- The attribute name for the RSS content-module namespace declaration. -/
def contentNsKey : List Char := "xmlns:content".data

/-- Lines 100-105 of `feed-processor.ts`: set `xmlns:content` on the `rss` root
when the attribute is falsy (absent or empty). -/
def ensureContentNs (attrs : List (List Char × List Char)) : List (List Char × List Char) :=
  match getKey contentNsKey attrs with
  | some v => if v = [] then setKey contentNsKey contentNsUri attrs else attrs
  | none => setKey contentNsKey contentNsUri attrs

/-- The `type` attribute name. -/
def typeKey : List Char := "type".data

/-- Per-entry Atom rewriting, lines 55-83 of `feed-processor.ts`: a truthy
summary is run through the `typeof` ladder - only a plain string survives as
source text, the object form an attribute-bearing element parses to yields
`""` and the entry is skipped; a non-empty source is split, the tag-stripped
first paragraph replaces the summary and a non-empty remainder becomes a
`content` element whose `type` is the detected label with `text` mapped to
`html`. -/
def processAtomEntry (e : Entry) : Entry :=
  match e.summary with
  | none => e
  | some v =>
    if !v.truthy then e
    else
      let s := v.srcText
      if s = [] then e
      else
        let r := splitAtFirstParagraph s
        let e1 := { e with summary := some (.str (stripHtmlTags r.1)) }
        if r.2 = [] then e1
        else
          let ct := detectContentType r.2
          { e1 with content := some (.written r.2 (if ct = .text then CType.html else ct).label) }

/-- Per-item RSS rewriting, lines 107-139 of `feed-processor.ts`: a falsy
summary is first replaced by a truthy description (object forms included);
the `typeof` ladder then extracts the source text - an object summary yields
`""` and the item is left as it stands (the copy, when it happened, sticks);
a non-empty string source is split, the cleaned first paragraph is written to
both `summary` and `description`, and a non-empty remainder is written
verbatim to `content:encoded` (the detected content type is computed but
unused there). -/
def processRssItem (e : Entry) : Entry :=
  let e0 :=
    if strFalsy e.summary && !strFalsy e.description then
      { e with summary := e.description }
    else e
  match e0.summary with
  | none => e0
  | some v =>
    if !v.truthy then e0
    else
      let s := v.srcText
      if s = [] then e0
      else
        let r := splitAtFirstParagraph s
        let cleaned := stripHtmlTags r.1
        let e1 := { e0 with summary := some (.str cleaned), description := some (.str cleaned) }
        if r.2 = [] then e1
        else { e1 with contentEncoded := some (.str r.2) }

/-- The whole-document rewriting of `processAtomFeed` after parsing: `none`
means the function returns the input text unchanged (the early returns on an
empty entry/item list); `some d` means the mutated document `d` is
re-serialized.  An unknown dialect falls through both branches and is
re-serialized unmodified. -/
def processFeedDoc : FeedDoc → Option FeedDoc
  | .atom attrs entries rest =>
    if entries.isEmpty then none
    else some (.atom attrs (entries.map processAtomEntry) rest)
  | .rss attrs chanAttrs items chanRest rssRest =>
    if items.isEmpty then some (.rss attrs chanAttrs items chanRest rssRest)
    else
      some (.rss (ensureContentNs attrs) chanAttrs (items.map processRssItem) chanRest rssRest)
  | .other root => some (.other root)

/-! ## The XML collaborator

Modelled from the spec: the generic XML parse/serialize capability
(xml2js `parseStringPromise` / `Builder`) is an external collaborator of the
core.  The model below parses elements, attributes, text with the five
predefined entities, CDATA sections and an optional XML declaration; text
values are trimmed (the repo's `trim: true` option) and repeated child
elements collapse to their first occurrence (`explicitArray: false` keeps
single children unwrapped).  Serialization emits a UTF-8 XML declaration and
wraps the rewritten content bodies in CDATA, the spec's literal-text block. -/

/-- The apostrophe character. -/
def apos : Char := Char.ofNat 39

/-- Modelled from the spec: a text run up to the next `<`, with the five
predefined XML entities decoded; an unknown entity reference is a parse
error. -/
def parseTextAux : List Char → Except (List Char) (List Char × List Char)
  | [] => .ok ([], [])
  | '<' :: rest => .ok ([], '<' :: rest)
  | '&' :: 'a' :: 'm' :: 'p' :: ';' :: rest =>
    (parseTextAux rest).map (fun p => ('&' :: p.1, p.2))
  | '&' :: 'l' :: 't' :: ';' :: rest =>
    (parseTextAux rest).map (fun p => ('<' :: p.1, p.2))
  | '&' :: 'g' :: 't' :: ';' :: rest =>
    (parseTextAux rest).map (fun p => ('>' :: p.1, p.2))
  | '&' :: 'q' :: 'u' :: 'o' :: 't' :: ';' :: rest =>
    (parseTextAux rest).map (fun p => ('"' :: p.1, p.2))
  | '&' :: 'a' :: 'p' :: 'o' :: 's' :: ';' :: rest =>
    (parseTextAux rest).map (fun p => (apos :: p.1, p.2))
  | '&' :: _ => .error "invalid entity reference".data
  | c :: rest => (parseTextAux rest).map (fun p => (c :: p.1, p.2))

/-- Modelled from the spec: a quoted attribute value up to the closing quote
`q`, entities decoded. -/
def parseQuotedAux (q : Char) : List Char → Except (List Char) (List Char × List Char)
  | [] => .error "unterminated attribute value".data
  | '&' :: 'a' :: 'm' :: 'p' :: ';' :: rest =>
    (parseQuotedAux q rest).map (fun p => ('&' :: p.1, p.2))
  | '&' :: 'l' :: 't' :: ';' :: rest =>
    (parseQuotedAux q rest).map (fun p => ('<' :: p.1, p.2))
  | '&' :: 'g' :: 't' :: ';' :: rest =>
    (parseQuotedAux q rest).map (fun p => ('>' :: p.1, p.2))
  | '&' :: 'q' :: 'u' :: 'o' :: 't' :: ';' :: rest =>
    (parseQuotedAux q rest).map (fun p => ('"' :: p.1, p.2))
  | '&' :: 'a' :: 'p' :: 'o' :: 's' :: ';' :: rest =>
    (parseQuotedAux q rest).map (fun p => (apos :: p.1, p.2))
  | '&' :: _ => .error "invalid entity reference".data
  | c :: rest =>
    if c = q then .ok ([], rest)
    else (parseQuotedAux q rest).map (fun p => (c :: p.1, p.2))

/-- Modelled from the spec: the body of a CDATA section up to `]]>`. -/
def cdataAux : List Char → Except (List Char) (List Char × List Char)
  | ']' :: ']' :: '>' :: rest => .ok ([], rest)
  | c :: rest => (cdataAux rest).map (fun p => (c :: p.1, p.2))
  | [] => .error "unterminated CDATA section".data

/-- Characters allowed in an element or attribute name. -/
def nameChar (c : Char) : Bool :=
  isAsciiLetter c || c.isDigit || c = ':' || c = '-' || c = '_' || c = '.'

/-- Longest name prefix and the remainder. -/
def parseRawName (l : List Char) : List Char × List Char :=
  (l.takeWhile nameChar, l.dropWhile nameChar)

/-- Modelled from the spec: the attribute list of an opening tag, ending just
before `>` or `/>`. -/
def parseAttrsListF : Nat → List Char → Except (List Char) (List (List Char × List Char) × List Char)
  | 0, _ => .error "attribute list too long".data
  | fuel + 1, l =>
    let l1 := l.dropWhile jsWS
    match l1 with
    | '>' :: _ => .ok ([], l1)
    | '/' :: '>' :: _ => .ok ([], l1)
    | [] => .error "unterminated tag".data
    | _ =>
      let (nm, r1) := parseRawName l1
      if nm = [] then .error "expected attribute name".data
      else
        match r1.dropWhile jsWS with
        | '=' :: r2 =>
          (match r2.dropWhile jsWS with
           | '"' :: r3 =>
             match parseQuotedAux '"' r3 with
             | .error e => .error e
             | .ok (v, r4) =>
               (parseAttrsListF fuel r4).map (fun p => ((nm, v) :: p.1, p.2))
           | c :: r3 =>
             if c = apos then
               match parseQuotedAux apos r3 with
               | .error e => .error e
               | .ok (v, r4) =>
                 (parseAttrsListF fuel r4).map (fun p => ((nm, v) :: p.1, p.2))
             else .error "expected quoted attribute value".data
           | [] => .error "expected quoted attribute value".data)
        | _ => .error "expected = after attribute name".data

mutual

/-- Modelled from the spec: a sequence of sibling nodes, stopping at a closing
tag or at the end of input. -/
def parseNodesF : Nat → List Char → Except (List Char) (List Xml × List Char)
  | 0, _ => .error "document too deep".data
  | fuel + 1, l =>
    match l with
    | [] => .ok ([], [])
    | '<' :: '/' :: rest => .ok ([], '<' :: '/' :: rest)
    | _ =>
      match parseNodeF fuel l with
      | .error e => .error e
      | .ok (x, rest) =>
        match parseNodesF fuel rest with
        | .error e => .error e
        | .ok (xs, rest') => .ok (x :: xs, rest')

/-- Modelled from the spec: one node - a CDATA section, an element (with
matching closing tag required), or a text run. -/
def parseNodeF : Nat → List Char → Except (List Char) (Xml × List Char)
  | 0, _ => .error "document too deep".data
  | fuel + 1, l =>
    match l with
    | '<' :: '!' :: '[' :: 'C' :: 'D' :: 'A' :: 'T' :: 'A' :: '[' :: rest =>
      (cdataAux rest).map (fun p => (.txt p.1, p.2))
    | '<' :: '/' :: _ => .error "unexpected closing tag".data
    | '<' :: rest =>
      let (nm, r1) := parseRawName rest
      if nm = [] then .error "expected element name".data
      else
        match parseAttrsListF (r1.length + 1) r1 with
        | .error e => .error e
        | .ok (attrs, r2) =>
          match r2 with
          | '/' :: '>' :: r3 => .ok (.elem nm attrs [], r3)
          | '>' :: r3 =>
            (match parseNodesF fuel r3 with
             | .error e => .error e
             | .ok (children, r4) =>
               match r4 with
               | '<' :: '/' :: r5 =>
                 let (nm2, r6) := parseRawName r5
                 (match r6.dropWhile jsWS with
                  | '>' :: r7 =>
                    if nm2 = nm then .ok (.elem nm attrs children, r7)
                    else .error "mismatched closing tag".data
                  | _ => .error "malformed closing tag".data)
               | _ => .error "unexpected end of input".data)
          | _ => .error "malformed tag".data
    | [] => .error "unexpected end of input".data
    | _ =>
      match parseTextAux l with
      | .error e => .error e
      | .ok (s, rest) => .ok (.txt s, rest)

end

/-- Modelled from the spec: a whole document - optional XML declaration, one
root element, nothing but whitespace around it. -/
def parseDocument (l : List Char) : Except (List Char) Xml :=
  let l0 := l.dropWhile jsWS
  let afterDecl : Except (List Char) (List Char) :=
    match l0 with
    | '<' :: '?' :: rest =>
      match findCI ('?' :: '>' :: []) rest with
      | none => .error "unterminated XML declaration".data
      | some i => .ok (rest.drop (i + 2))
    | _ => .ok l0
  match afterDecl with
  | .error e => .error e
  | .ok l1 =>
    let l2 := l1.dropWhile jsWS
    match parseNodeF (2 * l2.length + 4) l2 with
    | .error e => .error e
    | .ok (x, rest) =>
      if (rest.dropWhile jsWS).isEmpty then
        match x with
        | .elem _ _ _ => .ok x
        | .txt _ => .error "expected root element".data
      else .error "content after root element".data

/-- Whitespace-only text node (ignorable formatting between elements). -/
def isWsTxt : Xml → Bool
  | .txt s => jsTrim s = []
  | .elem _ _ _ => false

/-- Does the node render as an element with the given tag name? -/
def hasTag (nm : List Char) : Xml → Bool
  | .elem t _ _ => t = nm
  | .txt _ => false

/-- The xml2js string value of an element: its concatenated text children,
trimmed (the repo parses with `trim: true`). -/
def textValue : Xml → List Char
  | .elem _ _ children =>
    jsTrim (children.foldr (fun c acc => match c with | .txt s => s ++ acc | _ => acc) [])
  | .txt s => jsTrim s

/-- Attributes of an element node. -/
def attrsOf : Xml → List (List Char × List Char)
  | .elem _ attrs _ => attrs
  | .txt _ => []

/-- Is the node an element? -/
def isElemNode : Xml → Bool
  | .elem _ _ _ => true
  | .txt _ => false

/-- Truthiness of an element's xml2js value: an attribute-less element with
no element children and empty trimmed text parses to the empty string, which
is falsy; attributes, element children or text make the value truthy. -/
def xmlValueTruthy : Xml → Bool
  | .elem t attrs children =>
    !attrs.isEmpty || children.any isElemNode ||
      !(textValue (.elem t attrs children)).isEmpty
  | .txt s => !(jsTrim s).isEmpty

/-- The xml2js value of a descriptive child: a plain string for an
attribute-less element with no element children, the object form
otherwise. -/
def toFieldVal (x : Xml) : FieldVal :=
  match x with
  | .elem t attrs children =>
    if attrs.isEmpty && !children.any isElemNode then .str (textValue (.elem t attrs children))
    else .obj x
  | .txt s => .str (jsTrim s)

/-- The code's `feed.rss?.channel?.item` probe on the item children: absent
is falsy, a single item is as truthy as its own value (a lone empty `<item/>`
parses to the falsy empty string), two or more items form an array, which is
always truthy. -/
def itemProbe : List Xml → Bool
  | [] => false
  | [single] => xmlValueTruthy single
  | _ => true

/-- The field names the transform reads or writes on an entry/item. -/
def entryFieldNames : List (List Char) :=
  ["summary".data, "description".data, "content".data, "content:encoded".data]

/-- Modelled from the spec: project an `entry`/`item` element onto the fields
the transform manipulates, keeping every other child (formatting whitespace
dropped) in `rest`. -/
def toEntry : Xml → Entry
  | .elem _ attrs children =>
    { summary := ((children.filter (hasTag "summary".data)).head?).map toFieldVal
      description := ((children.filter (hasTag "description".data)).head?).map toFieldVal
      content := ((children.filter (hasTag "content".data)).head?).map ContentNode.parsed
      contentEncoded := ((children.filter (hasTag "content:encoded".data)).head?).map toFieldVal
      attrs := attrs
      rest := children.filter
        (fun c => !(entryFieldNames.any (fun nm => hasTag nm c)) && !isWsTxt c) }
  | .txt _ =>
    { summary := none, description := none, content := none, contentEncoded := none
      attrs := [], rest := [] }

/-- Modelled from the spec and the code's truthiness probes: Atom when the
root is `feed` with a truthy value (`!!feed.feed`), RSS when the root is
`rss` with exactly one `channel` child whose item probe is truthy
(`!!feed.rss?.channel?.item`), otherwise unknown - so a bare `<feed/>` and an
RSS feed whose only item is an empty `<item/>` both take the unknown-dialect
path, as in the source. -/
def toFeedDoc (root : Xml) : FeedDoc :=
  match root with
  | .elem tag attrs children =>
    if tag = "feed".data then
      if xmlValueTruthy root then
        .atom attrs ((children.filter (hasTag "entry".data)).map toEntry)
          (children.filter (fun c => !hasTag "entry".data c && !isWsTxt c))
      else .other root
    else if tag = "rss".data then
      match children.filter (hasTag "channel".data) with
      | [chan] =>
        match chan with
        | .elem _ chanAttrs chanChildren =>
          if itemProbe (chanChildren.filter (hasTag "item".data)) then
            .rss attrs chanAttrs
              ((chanChildren.filter (hasTag "item".data)).map toEntry)
              (chanChildren.filter (fun c => !hasTag "item".data c && !isWsTxt c))
              (children.filter (fun c => !hasTag "channel".data c && !isWsTxt c))
          else .other root
        | .txt _ => .other root
      | _ => .other root
    else .other root
  | .txt _ => .other root

/-- Serializer text escaping for character data. -/
def escXmlText : List Char → List Char
  | [] => []
  | '&' :: r => '&' :: 'a' :: 'm' :: 'p' :: ';' :: escXmlText r
  | '<' :: r => '&' :: 'l' :: 't' :: ';' :: escXmlText r
  | '>' :: r => '&' :: 'g' :: 't' :: ';' :: escXmlText r
  | c :: r => c :: escXmlText r

/-- Serializer escaping for attribute values (double-quoted). -/
def escXmlAttr : List Char → List Char
  | [] => []
  | '&' :: r => '&' :: 'a' :: 'm' :: 'p' :: ';' :: escXmlAttr r
  | '<' :: r => '&' :: 'l' :: 't' :: ';' :: escXmlAttr r
  | '>' :: r => '&' :: 'g' :: 't' :: ';' :: escXmlAttr r
  | '"' :: r => '&' :: 'q' :: 'u' :: 'o' :: 't' :: ';' :: escXmlAttr r
  | c :: r => c :: escXmlAttr r

/-- Render an attribute list. -/
def renderAttrs (attrs : List (List Char × List Char)) : List Char :=
  attrs.foldr (fun kv acc => ' ' :: (kv.1 ++ '=' :: '"' :: (escXmlAttr kv.2 ++ '"' :: acc))) []

mutual

/-- Modelled from the spec: serialize one node (childless elements as
self-closing tags). -/
def renderXml : Xml → List Char
  | .txt s => escXmlText s
  | .elem tag attrs children =>
    if children.isEmpty then
      '<' :: (tag ++ renderAttrs attrs ++ '/' :: '>' :: [])
    else
      '<' :: (tag ++ renderAttrs attrs ++ '>' :: renderXmlList children)
        ++ '<' :: '/' :: (tag ++ '>' :: [])

/-- Serialize a node list. -/
def renderXmlList : List Xml → List Char
  | [] => []
  | x :: xs => renderXml x ++ renderXmlList xs

end

/-- A simple text-valued field element. -/
def renderField (tag v : List Char) : List Char :=
  renderXml (.elem tag [] (if v.isEmpty then [] else [.txt v]))

/-- A field whose body is emitted as a literal-text CDATA block, the spec's
vehicle for preserving embedded markup verbatim. -/
def renderCDataField (tag : List Char) (attrs : List (List Char × List Char))
    (body : List Char) : List Char :=
  '<' :: (tag ++ renderAttrs attrs ++ '>' :: [])
    ++ "<![CDATA[".data ++ body ++ "]]>".data
    ++ '<' :: '/' :: (tag ++ '>' :: [])

/-- Serialize a descriptive field value under its key: a string value as a
plain text element, an object value as an element carrying the original
node's attributes and children. -/
def renderFieldVal (tag : List Char) : FieldVal → List Char
  | .str s => renderField tag s
  | .obj (Xml.elem _ a ch) => renderXml (.elem tag a ch)
  | .obj (Xml.txt s) => renderField tag (jsTrim s)

/-- Serialize a content element: a parsed one as it stood, a written one as a
typed literal CDATA block. -/
def renderContentNode : ContentNode → List Char
  | .parsed raw => renderXml raw
  | .written body ty => renderCDataField "content".data [(typeKey, ty)] body

/-- Serialize a `content:encoded` value: a written string as a literal CDATA
block, a parsed object as it stood. -/
def renderEncodedVal : FieldVal → List Char
  | .str s => renderCDataField "content:encoded".data [] s
  | .obj (Xml.elem _ a ch) => renderXml (.elem "content:encoded".data a ch)
  | .obj (Xml.txt s) => renderField "content:encoded".data (jsTrim s)

/-- Serialize an entry/item under the given tag name: untouched children
first, then the transform-managed fields. -/
def renderEntry (tagName : List Char) (e : Entry) : List Char :=
  '<' :: (tagName ++ renderAttrs e.attrs ++ '>' :: [])
    ++ renderXmlList e.rest
    ++ (match e.summary with | some v => renderFieldVal "summary".data v | none => [])
    ++ (match e.description with | some v => renderFieldVal "description".data v | none => [])
    ++ (match e.content with
        | some cn => renderContentNode cn
        | none => [])
    ++ (match e.contentEncoded with
        | some v => renderEncodedVal v
        | none => [])
    ++ '<' :: '/' :: (tagName ++ '>' :: [])

/-- The UTF-8 XML declaration the serializer prepends. -/
def xmlDecl : List Char := "<?xml version=\"1.0\" encoding=\"UTF-8\"?>".data

/-- Modelled from the spec: serialize the feed document back to an XML
document with a UTF-8 declaration. -/
def buildDoc (d : FeedDoc) : List Char :=
  xmlDecl ++
    (match d with
     | .atom attrs entries rest =>
       '<' :: ("feed".data ++ renderAttrs attrs ++ '>' :: [])
         ++ renderXmlList rest
         ++ entries.flatMap (renderEntry "entry".data)
         ++ "</feed>".data
     | .rss attrs chanAttrs items chanRest rssRest =>
       '<' :: ("rss".data ++ renderAttrs attrs ++ '>' :: [])
         ++ '<' :: ("channel".data ++ renderAttrs chanAttrs ++ '>' :: [])
         ++ renderXmlList chanRest
         ++ items.flatMap (renderEntry "item".data)
         ++ "</channel>".data
         ++ renderXmlList rssRest
         ++ "</rss>".data
     | .other root => renderXml root)

/-- The error outcome of the transform: the input was not well-formed XML and
the underlying message is attached. -/
inductive ParseError where
  | parseError (msg : List Char)
deriving DecidableEq, Repr

/-- `processAtomFeed` from `src/utils/feed-processor.ts` end to end: parse
(failures propagate untouched - there is no catch around the parse), rewrite
the tree, and either return the input text unchanged (the early returns) or
serialize the mutated document. -/
def transform (feedText : String) : Except ParseError String :=
  match parseDocument feedText.data with
  | .error m => .error (.parseError m)
  | .ok root =>
    match processFeedDoc (toFeedDoc root) with
    | none => .ok feedText
    | some d => .ok (String.mk (buildDoc d))

/-! ## Spec-side declarative characterizations

These definitions follow the wording of the specification, not the source;
the theorems below compare the source-derived scanners against them. -/

/-- No case-insensitive occurrence of `</p>` anywhere in `inner` - the lazy
inner group stops at the first closing tag. -/
def NoCloseP (inner : List Char) : Prop :=
  ∀ q, startsWithCI closePPat (inner.drop q) = false

/-- `w` is exactly one paragraph element as matched by Rule 1: an opening
paragraph tag (case-insensitive, attributes allowed, no `>` inside them)
through its closing tag, non-greedy over the innermost content. -/
def PElemShape (w : List Char) : Prop :=
  ∃ (c : Char) (a inner : List Char) (c2 : Char),
    c.toLower = 'p' ∧ c2.toLower = 'p' ∧ '>' ∉ a ∧ NoCloseP inner ∧
    w = '<' :: c :: (a ++ '>' :: (inner ++ '<' :: '/' :: c2 :: '>' :: []))

/-- A paragraph element of length `n` begins at position `i` of `l`. -/
def PMatchAt (l : List Char) (i n : Nat) : Prop :=
  ∃ w suf, l.drop i = w ++ suf ∧ w.length = n ∧ PElemShape w

/-- The FIRST paragraph element of `l` spans `[i, i+n)`: it matches there and
no earlier position starts any paragraph element. -/
def FirstPElemAt (l : List Char) (i n : Nat) : Prop :=
  PMatchAt l i n ∧ ∀ i' < i, ∀ n', ¬ PMatchAt l i' n'

/-- Claim C2 exactly as stated: Rule 1 (paragraph element), else Rule 2
(blank-line split), else Rule 3 with the empty/whitespace-only escape
confined to Rule 3. -/
def splitClaimStated (text : List Char) : List Char × List Char :=
  let n := normalizeCRLF text
  match pMatch n with
  | some (i, len) => (jsTrim ((n.drop i).take len), jsTrim (n.drop (i + len)))
  | none =>
    match splitNN n with
    | [] => if jsTrim text = [] then (text, []) else (jsTrim text, [])
    | part :: parts =>
      if parts = [] then (if jsTrim text = [] then (text, []) else (jsTrim text, []))
      else (jsTrim part, jsTrim (List.intercalate ['\n', '\n'] parts))

/-- Claim C5's html clause: the text contains a markup-looking tag - an
opening angle bracket immediately followed by an ASCII letter, closed by a
later `>`. -/
def ContainsMarkupTag (t : List Char) : Prop :=
  ∃ pre c post, t = pre ++ '<' :: c :: post ∧ isAsciiLetter c = true ∧ '>' ∈ post

/-- Claim C5's xhtml clause: the text is entirely wrapped in a single
`<div ...>` ... `</div>` element spanning the whole string, tag names
case-insensitive and attributes (no `>` among them) allowed. -/
def WrappedInSingleDiv (t : List Char) : Prop :=
  ∃ (d i v : Char) (a m : List Char) (d2 i2 v2 : Char),
    d.toLower = 'd' ∧ i.toLower = 'i' ∧ v.toLower = 'v' ∧ '>' ∉ a ∧
    d2.toLower = 'd' ∧ i2.toLower = 'i' ∧ v2.toLower = 'v' ∧
    t = '<' :: d :: i :: v :: (a ++ '>' :: (m ++ '<' :: '/' :: d2 :: i2 :: v2 :: '>' :: []))

/-! ## Supporting lemmas -/

theorem charOfNat_toNat {n : Nat} (h : n < 55296) : (Char.ofNat n).toNat = n := by
  have hv : n.isValidChar := Or.inl h
  simp [Char.ofNat, dif_pos hv, Char.ofNatAux, Char.toNat, UInt32.toNat]

/-- ASCII case folding cannot produce a character outside `a`-`z`; so a
character whose lower-case image is a symbol IS that symbol. -/
theorem toLower_eq_of_target {c t : Char} (ht : ¬ (97 ≤ t.toNat ∧ t.toNat ≤ 122))
    (h : c.toLower = t) : c = t := by
  unfold Char.toLower at h
  simp only at h
  by_cases hc : c.toNat ≥ 65 ∧ c.toNat ≤ 90
  · rw [if_pos hc] at h
    exfalso
    apply ht
    rw [← h]
    have hb : c.toNat + 32 < 55296 := by omega
    rw [charOfNat_toNat hb]
    omega
  · rw [if_neg hc] at h
    exact h

theorem findGt_eq_none_iff {l : List Char} : findGt l = none ↔ '>' ∉ l := by
  induction l with
  | nil => simp [findGt]
  | cons c rest ih =>
    by_cases hc : c = '>'
    · subst hc
      simp [findGt]
    · simp [findGt, hc, ih, Ne.symm hc]

theorem findGt_decomp {l : List Char} {j : Nat} (h : findGt l = some j) :
    ∃ a r, l = a ++ '>' :: r ∧ a.length = j ∧ '>' ∉ a := by
  induction l generalizing j with
  | nil => simp [findGt] at h
  | cons c rest ih =>
    by_cases hc : c = '>'
    · subst hc
      simp [findGt] at h
      exact ⟨[], rest, by simp [← h]⟩
    · simp [findGt, hc] at h
      obtain ⟨j', hj', rfl⟩ := h
      obtain ⟨a, r, rfl, rfl, ha⟩ := ih hj'
      refine ⟨c :: a, r, rfl, rfl, ?_⟩
      simp [ha]
      exact fun h => hc h.symm

theorem findGt_append {a : List Char} (ha : '>' ∉ a) (r : List Char) :
    findGt (a ++ '>' :: r) = some a.length := by
  induction a with
  | nil => simp [findGt]
  | cons c cs ih =>
    have hc : c ≠ '>' := fun h => ha (h ▸ List.mem_cons_self c cs)
    have hcs : '>' ∉ cs := fun h => ha (List.mem_cons_of_mem c h)
    simp [findGt, hc, ih hcs]

theorem startsWithCI_exists {pat l : List Char} :
    startsWithCI pat l = true ↔
      ∃ pre suf, l = pre ++ suf ∧ pre.map Char.toLower = pat.map Char.toLower := by
  induction pat generalizing l with
  | nil =>
    simp [startsWithCI]
  | cons p ps ih =>
    cases l with
    | nil =>
      simp [startsWithCI]
    | cons c cs =>
      simp only [startsWithCI, Bool.and_eq_true, decide_eq_true_eq, ih]
      constructor
      · rintro ⟨hc, pre, suf, rfl, hm⟩
        exact ⟨c :: pre, suf, rfl, by simp [hm, hc]⟩
      · rintro ⟨pre, suf, heq, hm⟩
        cases pre with
        | nil => simp at hm
        | cons q qs =>
          simp only [List.cons_append, List.cons.injEq] at heq
          obtain ⟨rfl, rfl⟩ := heq
          simp only [List.map_cons, List.cons.injEq] at hm
          exact ⟨hm.1, qs, suf, rfl, hm.2⟩

theorem startsWithCI_length_le {pat l : List Char} (h : startsWithCI pat l = true) :
    pat.length ≤ l.length := by
  obtain ⟨pre, suf, rfl, hm⟩ := startsWithCI_exists.1 h
  have : pre.length = pat.length := by
    have := congrArg List.length hm
    simpa using this
  simp [List.length_append]
  omega

theorem startsWithCI_map_getElem {pat l : List Char} (h : startsWithCI pat l = true)
    {d : Nat} (hd : d < pat.length) :
    (l.map Char.toLower)[d]? = (pat.map Char.toLower)[d]? := by
  obtain ⟨pre, suf, rfl, hm⟩ := startsWithCI_exists.1 h
  have hlen : pre.length = pat.length := by
    have := congrArg List.length hm
    simpa using this
  have hd' : d < (pre.map Char.toLower).length := by simpa [hlen] using hd
  rw [List.map_append, List.getElem?_append_left hd', hm]

theorem startsWithCI_append_left {pat x : List Char} (hx : pat.length ≤ x.length)
    (y : List Char) : startsWithCI pat (x ++ y) = startsWithCI pat x := by
  induction pat generalizing x with
  | nil => simp [startsWithCI]
  | cons p ps ih =>
    cases x with
    | nil => simp at hx
    | cons c cs =>
      simp only [List.cons_append, startsWithCI]
      exact congrArg (fun b => decide (c.toLower = p.toLower) && b) (ih (by simpa using hx))

theorem findCI_eq_some_iff {pat l : List Char} {k : Nat} :
    findCI pat l = some k ↔
      startsWithCI pat (l.drop k) = true ∧
        ∀ k' < k, startsWithCI pat (l.drop k') = false := by
  induction l generalizing k with
  | nil =>
    by_cases h : startsWithCI pat [] = true
    · simp only [findCI, if_pos h, List.drop_nil]
      constructor
      · rintro h0
        obtain rfl : k = 0 := by
          cases h0
          rfl
        exact ⟨h, fun k' hk' => absurd hk' (Nat.not_lt_zero k')⟩
      · rintro ⟨_, hmin⟩
        cases k with
        | zero => rfl
        | succ m => exact absurd (hmin 0 (Nat.succ_pos m)) (by simp [h])
    · simp only [findCI, if_neg h, List.drop_nil]
      constructor
      · rintro ⟨⟩
      · rintro ⟨habs, _⟩
        exact absurd habs h
  | cons c cs ih =>
    by_cases h : startsWithCI pat (c :: cs) = true
    · simp only [findCI, if_pos h]
      constructor
      · rintro h0
        obtain rfl : k = 0 := by
          cases h0
          rfl
        exact ⟨h, fun k' hk' => absurd hk' (Nat.not_lt_zero k')⟩
      · rintro ⟨_, hmin⟩
        cases k with
        | zero => rfl
        | succ m =>
          exact absurd (hmin 0 (Nat.succ_pos m)) (by simp [h])
    · simp only [findCI, if_neg h, Option.map_eq_some']
      constructor
      · rintro ⟨k', hk', rfl⟩
        obtain ⟨hs, hmin⟩ := ih.1 hk'
        refine ⟨by simpa using hs, ?_⟩
        intro j hj
        cases j with
        | zero => simpa using h
        | succ j' =>
          have : j' < k' := by omega
          simpa using hmin j' this
      · rintro ⟨hs, hmin⟩
        cases k with
        | zero =>
          simp only [List.drop_zero] at hs
          exact absurd hs h
        | succ m =>
          refine ⟨m, ih.2 ⟨by simpa using hs, ?_⟩, rfl⟩
          intro j hj
          have := hmin (j + 1) (by omega)
          simpa using this

theorem pMatch_eq_some_iff {l : List Char} {i n : Nat} :
    pMatch l = some (i, n) ↔
      tryPMatchAt (l.drop i) = some n ∧
        ∀ i' < i, tryPMatchAt (l.drop i') = none := by
  induction l generalizing i with
  | nil =>
    have ht : tryPMatchAt ([] : List Char) = none := rfl
    simp [pMatch, List.drop_nil, ht]
  | cons c cs ih =>
    cases h : tryPMatchAt (c :: cs) with
    | some m =>
      simp only [pMatch, h]
      constructor
      · rintro h0
        obtain ⟨rfl, rfl⟩ : i = 0 ∧ n = m := by
          cases h0
          exact ⟨rfl, rfl⟩
        exact ⟨by simpa using h, fun i' hi' => absurd hi' (Nat.not_lt_zero i')⟩
      · rintro ⟨hs, hmin⟩
        cases i with
        | zero =>
          simp only [List.drop_zero] at hs
          rw [h] at hs
          cases hs
          rfl
        | succ m' =>
          have := hmin 0 (Nat.succ_pos m')
          simp only [List.drop_zero] at this
          rw [h] at this
          cases this
    | none =>
      simp only [pMatch, h, Option.map_eq_some']
      constructor
      · rintro ⟨⟨i', n'⟩, hp, heq⟩
        obtain ⟨rfl, rfl⟩ : i = i' + 1 ∧ n = n' := by
          cases heq
          exact ⟨rfl, rfl⟩
        obtain ⟨hs, hmin⟩ := ih.1 hp
        refine ⟨by simpa using hs, ?_⟩
        intro j hj
        cases j with
        | zero => simpa using h
        | succ j' =>
          have : j' < i' := by omega
          simpa using hmin j' this
      · rintro ⟨hs, hmin⟩
        cases i with
        | zero =>
          simp only [List.drop_zero] at hs
          rw [h] at hs
          cases hs
        | succ m' =>
          refine ⟨(m', n), ih.2 ⟨by simpa using hs, ?_⟩, rfl⟩
          intro j hj
          have := hmin (j + 1) (by omega)
          simpa using this

theorem pMatch_eq_none_iff {l : List Char} :
    pMatch l = none ↔ ∀ i, tryPMatchAt (l.drop i) = none := by
  induction l with
  | nil =>
    have ht : tryPMatchAt ([] : List Char) = none := rfl
    simp [pMatch, List.drop_nil, ht]
  | cons c cs ih =>
    cases h : tryPMatchAt (c :: cs) with
    | some m =>
      simp only [pMatch, h]
      constructor
      · rintro ⟨⟩
      · intro hall
        have := hall 0
        simp only [List.drop_zero] at this
        rw [h] at this
        cases this
    | none =>
      simp only [pMatch, h, Option.map_eq_none', ih]
      constructor
      · intro hall i
        cases i with
        | zero => simpa using h
        | succ j => simpa using hall j
      · intro hall j
        have := hall (j + 1)
        simpa using this

theorem startsWithCI_closePPat_nil : startsWithCI closePPat [] = false := rfl

/-- A case-insensitive `</p>` cannot begin inside the last three characters
before an actual closing tag: the straddling position would have to match a
tag character against `<`. -/
theorem no_straddle {x : List Char} {c2 : Char} (hc2 : c2.toLower = 'p')
    (hx1 : 1 ≤ x.length) (hx3 : x.length ≤ 3) (suf : List Char) :
    startsWithCI closePPat (x ++ '<' :: '/' :: c2 :: '>' :: suf) = false := by
  by_contra habs
  have h : startsWithCI closePPat (x ++ '<' :: '/' :: c2 :: '>' :: suf) = true := by
    revert habs
    cases startsWithCI closePPat (x ++ '<' :: '/' :: c2 :: '>' :: suf) <;> simp
  have hd : x.length < closePPat.length := by
    simp only [closePPat, List.length_cons, List.length_nil]
    omega
  have hR := startsWithCI_map_getElem h hd
  have hL : (List.map Char.toLower (x ++ '<' :: '/' :: c2 :: '>' :: suf))[x.length]? =
      some (Char.toLower '<') := by
    rw [List.map_append, List.getElem?_append_right (by simp)]
    simp
  rw [hL] at hR
  have h3 : x.length = 1 ∨ x.length = 2 ∨ x.length = 3 := by omega
  rcases h3 with h3 | h3 | h3 <;> rw [h3] at hR <;> simp [closePPat] at hR <;>
    exact absurd hR (by decide)

theorem tryPMatchAt_eq_some_iff {l : List Char} {n : Nat} :
    tryPMatchAt l = some n ↔
      ∃ w suf, l = w ++ suf ∧ w.length = n ∧ PElemShape w := by
  constructor
  · intro h
    unfold tryPMatchAt at h
    split at h
    case _ c rest =>
      split at h
      case isTrue hc =>
        split at h
        case _ => cases h
        case _ j hj =>
          split at h
          case _ => cases h
          case _ k hk =>
            cases h
            obtain ⟨a, r, rfl, rfl, ha⟩ := findGt_decomp hj
            obtain ⟨hs, hmin⟩ := findCI_eq_some_iff.1 hk
            have hdropar : (a ++ '>' :: r).drop (a.length + 1) = r := by
              have : a ++ '>' :: r = (a ++ ['>']) ++ r := by simp
              rw [this]
              have hlen : (a ++ ['>']).length = a.length + 1 := by simp
              rw [← hlen, List.drop_left]
            rw [hdropar] at hs hmin
            have hlen4 := startsWithCI_length_le hs
            have hkr : k ≤ r.length := by
              have := List.length_drop k r
              simp only [closePPat, List.length_cons, List.length_nil] at hlen4
              omega
            obtain ⟨pre, suf2, hpre, hm⟩ := startsWithCI_exists.1 hs
            have hprelen : pre.length = 4 := by
              have := congrArg List.length hm
              simpa [closePPat] using this
            obtain ⟨x0, x1, x2, x3, hx⟩ :
                ∃ x0 x1 x2 x3, pre = [x0, x1, x2, x3] := by
              match pre, hprelen with
              | [x0, x1, x2, x3], _ => exact ⟨x0, x1, x2, x3, rfl⟩
            subst hx
            simp only [closePPat, List.map_cons, List.map_nil, List.cons.injEq,
              and_true] at hm
            obtain ⟨h0, h1, h2, h3⟩ := hm
            have hx0 : x0 = '<' := toLower_eq_of_target (by decide) (by
              rw [h0]; decide)
            have hx1 : x1 = '/' := toLower_eq_of_target (by decide) (by
              rw [h1]; decide)
            have hx3' : x3 = '>' := toLower_eq_of_target (by decide) (by
              rw [h3]; decide)
            have hx2 : x2.toLower = 'p' := by
              rw [h2]; decide
            subst hx0 hx1 hx3'
            refine ⟨'<' :: c :: (a ++ '>' :: ((r.take k) ++
              '<' :: '/' :: x2 :: '>' :: [])), suf2, ?_, ?_, ?_⟩
            · have hr : r = r.take k ++ ('<' :: '/' :: x2 :: '>' :: suf2) := by
                conv_lhs => rw [← List.take_append_drop k r]
                rw [hpre]
                simp
              conv_lhs => rw [hr]
              simp
            · have htk : (r.take k).length = k := by
                simp
                omega
              simp [htk]
              omega
            · refine ⟨c, a, r.take k, x2, hc, hx2, ha, ?_, rfl⟩
              intro q
              by_cases hq : q < k
              · by_cases hq4 : q + 4 ≤ k
                · have hdq : r.drop q = (r.take k).drop q ++ ('<' :: '/' :: x2 :: '>' :: suf2) := by
                    conv_lhs => rw [← List.take_append_drop k r, hpre]
                    rw [List.drop_append_of_le_length (by simp; omega)]
                    simp
                  have hlendq : closePPat.length ≤ ((r.take k).drop q).length := by
                    simp only [closePPat, List.length_cons, List.length_nil,
                      List.length_drop, List.length_take]
                    omega
                  have := hmin q hq
                  rw [hdq, startsWithCI_append_left hlendq] at this
                  exact this
                · by_contra habs
                  have htrue : startsWithCI closePPat ((r.take k).drop q) = true := by
                    revert habs
                    cases startsWithCI closePPat ((r.take k).drop q) <;> simp
                  have := startsWithCI_length_le htrue
                  simp only [closePPat, List.length_cons, List.length_nil,
                    List.length_drop, List.length_take] at this
                  omega
              · have : (r.take k).drop q = [] := by
                  rw [List.drop_eq_nil_iff_le]
                  rw [List.length_take]
                  omega
                rw [this]
                exact startsWithCI_closePPat_nil
      case isFalse => cases h
    case _ => cases h
  · rintro ⟨w, suf, rfl, rfl, c, a, inner, c2, hc, hc2, ha, hni, rfl⟩
    have hshape : ('<' :: c :: (a ++ '>' :: (inner ++ '<' :: '/' :: c2 :: '>' :: []))) ++ suf =
        '<' :: c :: (a ++ '>' :: (inner ++ '<' :: '/' :: c2 :: '>' :: suf)) := by
      simp
    rw [hshape]
    simp only [tryPMatchAt]
    rw [if_pos hc, findGt_append ha]
    have hdropar : (a ++ '>' :: (inner ++ '<' :: '/' :: c2 :: '>' :: suf)).drop (a.length + 1) =
        inner ++ '<' :: '/' :: c2 :: '>' :: suf := by
      have : a ++ '>' :: (inner ++ '<' :: '/' :: c2 :: '>' :: suf) =
          (a ++ ['>']) ++ (inner ++ '<' :: '/' :: c2 :: '>' :: suf) := by simp
      rw [this]
      have hlen : (a ++ ['>']).length = a.length + 1 := by simp
      rw [← hlen, List.drop_left]
    change (match findCI closePPat
        ((a ++ '>' :: (inner ++ '<' :: '/' :: c2 :: '>' :: suf)).drop (a.length + 1)) with
      | none => none
      | some k => some (2 + (a.length + 1) + k + 4)) = _
    rw [hdropar]
    have hfind : findCI closePPat (inner ++ '<' :: '/' :: c2 :: '>' :: suf) =
        some inner.length := by
      rw [findCI_eq_some_iff]
      constructor
      · rw [List.drop_left]
        simp [startsWithCI, closePPat, hc2]
      · intro q hq
        have hdq : (inner ++ '<' :: '/' :: c2 :: '>' :: suf).drop q =
            inner.drop q ++ '<' :: '/' :: c2 :: '>' :: suf := by
          rw [List.drop_append_of_le_length]
          omega
        rw [hdq]
        by_cases hq4 : q + 4 ≤ inner.length
        · have hlendq : closePPat.length ≤ (inner.drop q).length := by
            simp only [closePPat, List.length_cons, List.length_nil, List.length_drop]
            omega
          rw [startsWithCI_append_left hlendq]
          exact hni q
        · have hlen1 : 1 ≤ (inner.drop q).length := by
            simp only [List.length_drop]
            omega
          have hlen3 : (inner.drop q).length ≤ 3 := by
            simp only [List.length_drop]
            omega
          exact no_straddle hc2 hlen1 hlen3 suf
    rw [hfind]
    change some (2 + (a.length + 1) + inner.length + 4) = _
    simp only [Option.some.injEq, List.length_cons, List.length_append, List.length_nil]
    omega

theorem tryPMatchAt_eq_none_iff {l : List Char} :
    tryPMatchAt l = none ↔ ∀ n, ¬ ∃ w suf, l = w ++ suf ∧ w.length = n ∧ PElemShape w := by
  constructor
  · intro h n habs
    rw [← tryPMatchAt_eq_some_iff] at habs
    rw [h] at habs
    cases habs
  · intro h
    cases hcase : tryPMatchAt l with
    | none => rfl
    | some m => exact absurd (tryPMatchAt_eq_some_iff.1 hcase) (h m)

/-- The scanner derived from `/<p[^>]*>([\s\S]*?)<\/p>/i` returns exactly the
FIRST paragraph element, in the declarative sense. -/
theorem pMatch_first_iff {l : List Char} {i n : Nat} :
    pMatch l = some (i, n) ↔ FirstPElemAt l i n := by
  rw [pMatch_eq_some_iff]
  constructor
  · rintro ⟨hs, hmin⟩
    refine ⟨tryPMatchAt_eq_some_iff.1 hs, ?_⟩
    intro i' hi' n' habs
    have := tryPMatchAt_eq_none_iff.1 (hmin i' hi') n'
    exact this habs
  · rintro ⟨hm, hmin⟩
    refine ⟨tryPMatchAt_eq_some_iff.2 hm, ?_⟩
    intro i' hi'
    rw [tryPMatchAt_eq_none_iff]
    intro n' habs
    exact hmin i' hi' n' habs

/-- The scanner finds nothing exactly when no paragraph element occurs
anywhere. -/
theorem pMatch_none_iff {l : List Char} :
    pMatch l = none ↔ ∀ i n, ¬ PMatchAt l i n := by
  rw [pMatch_eq_none_iff]
  constructor
  · intro h i n habs
    exact (tryPMatchAt_eq_none_iff.1 (h i)) n habs
  · intro h i
    rw [tryPMatchAt_eq_none_iff]
    intro n habs
    exact h i n habs

/-- C2 counterexample: on the whitespace-only input `" \n\n "` the code
returns the input unchanged (its emptiness check runs first), while the claim
as stated reaches Rule 2, which splits into two parts and yields `("", "")`. -/
theorem c2_counterexample :
    splitAtFirstParagraph " \n\n ".data = (" \n\n ".data, []) ∧
    splitClaimStated " \n\n ".data = ([], []) ∧
    splitAtFirstParagraph " \n\n ".data ≠ splitClaimStated " \n\n ".data := by
  decide

/-- C2 (amended): `splitAtFirstParagraph` returns the input with an empty
second part whenever the input is empty or whitespace-only - this check runs
BEFORE Rules 1 and 2; otherwise, on the CR-LF-normalized text, Rule 1 splits
at the first paragraph element (its exact text trimmed, the text strictly
after it trimmed), Rule 2 splits at the first blank-line run when no
paragraph element occurs and the blank-line split yields two or more parts,
and otherwise the whole trimmed original is the first paragraph. -/
theorem c2_split_rules (text : List Char) :
    (jsTrim text = [] → splitAtFirstParagraph text = (text, [])) ∧
    (jsTrim text ≠ [] →
      (∀ i n, FirstPElemAt (normalizeCRLF text) i n →
        splitAtFirstParagraph text =
          (jsTrim (((normalizeCRLF text).drop i).take n),
           jsTrim ((normalizeCRLF text).drop (i + n)))) ∧
      ((∀ i n, ¬ PMatchAt (normalizeCRLF text) i n) →
        (∀ part parts, splitNN (normalizeCRLF text) = part :: parts → parts ≠ [] →
          splitAtFirstParagraph text =
            (jsTrim part, jsTrim (List.intercalate ['\n', '\n'] parts))) ∧
        (∀ part, splitNN (normalizeCRLF text) = [part] →
          splitAtFirstParagraph text = (jsTrim text, [])))) := by
  refine ⟨?_, ?_⟩
  · intro ht
    unfold splitAtFirstParagraph
    rw [if_pos ht]
  · intro ht
    refine ⟨?_, ?_⟩
    · intro i n hfirst
      have hm : pMatch (normalizeCRLF text) = some (i, n) := pMatch_first_iff.2 hfirst
      unfold splitAtFirstParagraph
      rw [if_neg ht]
      simp only [hm]
    · intro hnone
      have hm : pMatch (normalizeCRLF text) = none := pMatch_none_iff.2 hnone
      refine ⟨?_, ?_⟩
      · intro part parts hs hp
        unfold splitAtFirstParagraph
        rw [if_neg ht]
        simp only [hm, hs]
        rw [if_neg hp]
      · intro part hs
        unfold splitAtFirstParagraph
        rw [if_neg ht]
        simp only [hm, hs]
        simp

/-- C2 witness: the amended rules evaluated on concrete inputs - the
whitespace rule on `" \n\n "`, Rule 1 on `"<p>A</p><p>B</p>"` and Rule 2 on
`"A\n\nB"`. -/
theorem c2_witness :
    splitAtFirstParagraph " \n\n ".data = (" \n\n ".data, []) ∧
    splitAtFirstParagraph "<p>A</p><p>B</p>".data = ("<p>A</p>".data, "<p>B</p>".data) ∧
    splitAtFirstParagraph "A\n\nB".data = ("A".data, "B".data) := by
  refine ⟨(c2_split_rules _).1 (by decide), ?_, ?_⟩
  · have h := ((c2_split_rules "<p>A</p><p>B</p>".data).2 (by decide)).1 0 8
      (pMatch_first_iff.1 (by decide))
    simpa using h
  · have h := (((c2_split_rules "A\n\nB".data).2 (by decide)).2
      (pMatch_none_iff.1 (by decide))).1 "A".data ["B".data] (by decide) (by decide)
    simpa using h

theorem findGt_isSome_iff {l : List Char} : (findGt l).isSome = true ↔ '>' ∈ l := by
  cases h : findGt l with
  | none =>
    simp only [Option.isSome_none, Bool.false_eq_true, false_iff]
    exact findGt_eq_none_iff.1 h
  | some j =>
    simp only [Option.isSome_some, true_iff]
    obtain ⟨a, r, rfl, -, -⟩ := findGt_decomp h
    simp

theorem endsWithCI_iff {pat l : List Char} :
    endsWithCI pat l = true ↔
      ∃ front tail, l = front ++ tail ∧ tail.map Char.toLower = pat.map Char.toLower := by
  unfold endsWithCI
  rw [startsWithCI_exists]
  constructor
  · rintro ⟨pre, suf, hrev, hm⟩
    refine ⟨suf.reverse, pre.reverse, ?_, ?_⟩
    · have := congrArg List.reverse hrev
      simpa using this
    · rw [List.map_reverse, hm, List.map_reverse, List.reverse_reverse]
  · rintro ⟨front, tail, rfl, hm⟩
    refine ⟨tail.reverse, front.reverse, by simp, ?_⟩
    rw [List.map_reverse, hm, List.map_reverse]

/-- The html regex test accepts exactly the texts containing a
markup-looking tag. -/
theorem htmlCheck_iff {t : List Char} :
    htmlCheck t = true ↔ ContainsMarkupTag t := by
  induction t with
  | nil =>
    simp only [htmlCheck, Bool.false_eq_true, false_iff, ContainsMarkupTag]
    rintro ⟨pre, c, post, h, -, -⟩
    cases pre <;> simp at h
  | cons x rest ih =>
    by_cases hx : x = '<'
    · subst hx
      cases rest with
      | nil =>
        simp only [htmlCheck, Bool.false_eq_true, false_iff, ContainsMarkupTag]
        rintro ⟨pre, c, post, h, -, -⟩
        cases pre with
        | nil => simp at h
        | cons y ys =>
          simp only [List.cons_append, List.cons.injEq] at h
          obtain ⟨-, h2⟩ := h
          cases ys <;> simp at h2
      | cons c rest2 =>
        simp only [htmlCheck, Bool.or_eq_true, Bool.and_eq_true, ih]
        constructor
        · rintro (⟨hl, hg⟩ | hcont)
          · exact ⟨[], c, rest2, rfl, hl, findGt_isSome_iff.1 hg⟩
          · obtain ⟨pre, c', post, heq, hl, hg⟩ := hcont
            exact ⟨'<' :: pre, c', post, by rw [heq]; rfl, hl, hg⟩
        · rintro ⟨pre, c', post, heq, hl, hg⟩
          cases pre with
          | nil =>
            simp only [List.nil_append, List.cons.injEq] at heq
            obtain ⟨-, rfl, rfl⟩ := heq
            exact Or.inl ⟨hl, findGt_isSome_iff.2 hg⟩
          | cons y ys =>
            simp only [List.cons_append, List.cons.injEq] at heq
            exact Or.inr ⟨ys, c', post, heq.2, hl, hg⟩
    · have hunfold : htmlCheck (x :: rest) = htmlCheck rest := by
        cases rest with
        | nil => cases x with | mk v h => simp [htmlCheck, hx]
        | cons c rest2 => simp [htmlCheck, hx]
      rw [hunfold, ih]
      constructor
      · rintro ⟨pre, c', post, heq, hl, hg⟩
        exact ⟨x :: pre, c', post, by rw [heq]; rfl, hl, hg⟩
      · rintro ⟨pre, c', post, heq, hl, hg⟩
        cases pre with
        | nil =>
          simp only [List.nil_append, List.cons.injEq] at heq
          exact absurd heq.1 hx
        | cons y ys =>
          simp only [List.cons_append, List.cons.injEq] at heq
          exact ⟨ys, c', post, heq.2, hl, hg⟩

theorem xhtmlCheck_eq_of_findGt {t : List Char} {j : Nat} (h : findGt (t.drop 4) = some j) :
    xhtmlCheck t = (startsWithCI ('<' :: 'd' :: 'i' :: 'v' :: []) t &&
      (decide (4 + (j + 1) + 6 ≤ t.length) &&
        endsWithCI ('<' :: '/' :: 'd' :: 'i' :: 'v' :: '>' :: []) t)) := by
  unfold xhtmlCheck
  rw [h]

theorem xhtmlCheck_eq_of_findGt_none {t : List Char} (h : findGt (t.drop 4) = none) :
    xhtmlCheck t = false := by
  unfold xhtmlCheck
  rw [h]
  simp

/-- The xhtml regex test accepts exactly the texts entirely wrapped in a
single div element. -/
theorem xhtmlCheck_iff {t : List Char} :
    xhtmlCheck t = true ↔ WrappedInSingleDiv t := by
  constructor
  · intro h
    cases hfind : findGt (t.drop 4) with
    | none => rw [xhtmlCheck_eq_of_findGt_none hfind] at h; cases h
    | some j =>
      rw [xhtmlCheck_eq_of_findGt hfind, Bool.and_eq_true, Bool.and_eq_true,
        decide_eq_true_eq] at h
      obtain ⟨hsw, hlen, hend⟩ := h
      obtain ⟨pre, suf, hteq, hm⟩ := startsWithCI_exists.1 hsw
      have hprelen : pre.length = 4 := by
        have := congrArg List.length hm
        simpa using this
      obtain ⟨y0, y1, y2, y3, rfl⟩ : ∃ y0 y1 y2 y3, pre = [y0, y1, y2, y3] := by
        match pre, hprelen with
        | [y0, y1, y2, y3], _ => exact ⟨y0, y1, y2, y3, rfl⟩
      simp only [List.map_cons, List.map_nil, List.cons.injEq, and_true] at hm
      obtain ⟨h0, h1, h2, h3⟩ := hm
      have hy0 : y0 = '<' := toLower_eq_of_target (by decide) (by rw [h0]; decide)
      subst hy0
      have hdrop4 : t.drop 4 = suf := by
        rw [hteq]
        have h4 : (['<', y1, y2, y3] : List Char).length = 4 := rfl
        rw [← h4, List.drop_left]
      rw [hdrop4] at hfind
      obtain ⟨a, r2, rfl, rfl, ha⟩ := findGt_decomp hfind
      obtain ⟨front, tail, hteq2, hmt⟩ := endsWithCI_iff.1 hend
      have htail6 : tail.length = 6 := by
        have := congrArg List.length hmt
        simpa using this
      obtain ⟨z0, z1, z2, z3, z4, z5, rfl⟩ :
          ∃ z0 z1 z2 z3 z4 z5, tail = [z0, z1, z2, z3, z4, z5] := by
        match tail, htail6 with
        | [z0, z1, z2, z3, z4, z5], _ => exact ⟨z0, z1, z2, z3, z4, z5, rfl⟩
      simp only [List.map_cons, List.map_nil, List.cons.injEq, and_true] at hmt
      obtain ⟨g0, g1, g2, g3, g4, g5⟩ := hmt
      have hz0 : z0 = '<' := toLower_eq_of_target (by decide) (by rw [g0]; decide)
      have hz1 : z1 = '/' := toLower_eq_of_target (by decide) (by rw [g1]; decide)
      have hz5 : z5 = '>' := toLower_eq_of_target (by decide) (by rw [g5]; decide)
      subst hz0 hz1 hz5
      have htlen : t.length = 4 + a.length + 1 + r2.length := by
        rw [hteq]
        simp
        omega
      have hr2len : 6 ≤ r2.length := by omega
      have hfrontlen : front.length = t.length - 6 := by
        have := congrArg List.length hteq2
        simp at this
        omega
      have htaildrop : t.drop front.length = ['<', '/', z2, z3, z4, '>'] := by
        rw [hteq2, List.drop_left]
      have hPre : t = (['<', y1, y2, y3] ++ a ++ ['>']) ++ r2 := by
        rw [hteq]
        simp
      have hdropr2 : t.drop (front.length) = r2.drop (r2.length - 6) := by
        rw [hPre]
        have hplen : (['<', y1, y2, y3] ++ a ++ ['>'] : List Char).length = 4 + a.length + 1 := by
          simp
          omega
        have hfl : front.length = (['<', y1, y2, y3] ++ a ++ ['>'] : List Char).length +
            (r2.length - 6) := by
          rw [hplen]
          omega
        rw [hfl, List.drop_append]
      have hr2eq : r2 = r2.take (r2.length - 6) ++ ['<', '/', z2, z3, z4, '>'] := by
        conv_lhs => rw [← List.take_append_drop (r2.length - 6) r2]
        rw [← hdropr2, htaildrop]
      refine ⟨y1, y2, y3, a, r2.take (r2.length - 6), z2, z3, z4,
        h1, h2, h3, ha, g2, g3, g4, ?_⟩
      rw [hteq]
      conv_lhs => rw [hr2eq]
      simp
  · rintro ⟨d, i, v, a, m, d2, i2, v2, hd, hi, hv, ha, hd2, hi2, hv2, rfl⟩
    have hdrop4 : ('<' :: d :: i :: v ::
        (a ++ '>' :: (m ++ '<' :: '/' :: d2 :: i2 :: v2 :: '>' :: []))).drop 4 =
        a ++ '>' :: (m ++ '<' :: '/' :: d2 :: i2 :: v2 :: '>' :: []) := rfl
    have hfind : findGt (('<' :: d :: i :: v ::
        (a ++ '>' :: (m ++ '<' :: '/' :: d2 :: i2 :: v2 :: '>' :: []))).drop 4) =
        some a.length := by
      rw [hdrop4]
      exact findGt_append ha _
    rw [xhtmlCheck_eq_of_findGt hfind, Bool.and_eq_true, Bool.and_eq_true]
    refine ⟨?_, ?_, ?_⟩
    · rw [startsWithCI_exists]
      refine ⟨['<', d, i, v], a ++ '>' :: (m ++ '<' :: '/' :: d2 :: i2 :: v2 :: '>' :: []),
        rfl, ?_⟩
      simp only [List.map_cons, List.map_nil, hd, hi, hv]
      decide
    · rw [decide_eq_true_eq]
      simp
      omega
    · rw [endsWithCI_iff]
      refine ⟨'<' :: d :: i :: v :: (a ++ '>' :: m), ['<', '/', d2, i2, v2, '>'], ?_, ?_⟩
      · simp
      · simp only [List.map_cons, List.map_nil, hd2, hi2, hv2]
        decide

/-- C5: `detectContentType` trims its input and classifies it as the claim
describes: `xhtml` exactly when the trimmed text is entirely wrapped in a
single div element spanning the whole string; otherwise `html` exactly when
it contains a markup-looking tag; otherwise `text`. -/
theorem c5_detectContentType_classification (content : List Char) :
    (detectContentType content = .xhtml ↔ WrappedInSingleDiv (jsTrim content)) ∧
    (detectContentType content = .html ↔
      ¬ WrappedInSingleDiv (jsTrim content) ∧ ContainsMarkupTag (jsTrim content)) ∧
    (detectContentType content = .text ↔
      ¬ WrappedInSingleDiv (jsTrim content) ∧ ¬ ContainsMarkupTag (jsTrim content)) := by
  unfold detectContentType
  by_cases hx : xhtmlCheck (jsTrim content) = true
  · have hw : WrappedInSingleDiv (jsTrim content) := xhtmlCheck_iff.1 hx
    simp only [hx, if_true]
    refine ⟨by simp [hw], ?_, ?_⟩
    · simp only [reduceCtorEq, false_iff]
      intro habs
      exact habs.1 hw
    · simp only [reduceCtorEq, false_iff]
      intro habs
      exact habs.1 hw
  · have hw : ¬ WrappedInSingleDiv (jsTrim content) := fun habs => hx (xhtmlCheck_iff.2 habs)
    rw [if_neg hx]
    by_cases hh : htmlCheck (jsTrim content) = true
    · have hc : ContainsMarkupTag (jsTrim content) := htmlCheck_iff.1 hh
      simp only [hh, if_true]
      exact ⟨by simp [hw], by simp [hw, hc], by simp [hc]⟩
    · have hc : ¬ ContainsMarkupTag (jsTrim content) := fun habs => hh (htmlCheck_iff.2 habs)
      rw [if_neg hh]
      exact ⟨by simp [hw], by simp [hc], by simp [hw, hc]⟩

/-- C5 witness: the classification evaluated through the theorem at concrete
inputs of each class. -/
theorem c5_witness :
    WrappedInSingleDiv (jsTrim "  <div id=\"x\">A<p>B</p></div> ".data) ∧
    ContainsMarkupTag (jsTrim "one <b>bold</b>".data) ∧
    ¬ ContainsMarkupTag (jsTrim "plain 2 < 5 text".data) := by
  refine ⟨?_, ?_, ?_⟩
  · exact (c5_detectContentType_classification _).1.mp (by decide)
  · exact ((c5_detectContentType_classification _).2.1.mp (by decide)).2
  · exact ((c5_detectContentType_classification "plain 2 < 5 text".data).2.2.mp
      (by decide)).2

theorem jsTrim_eq_nil_iff {o : List Char} :
    jsTrim o = [] ↔ ∀ c ∈ o, jsWS c = true := by
  unfold jsTrim
  rw [List.reverse_eq_nil_iff, List.dropWhile_eq_nil_iff]
  simp only [List.mem_reverse]
  constructor
  · intro h c hc
    have hsplit : List.takeWhile jsWS o ++ List.dropWhile jsWS o = o :=
      List.takeWhile_append_dropWhile jsWS o
    rw [← hsplit] at hc
    rcases List.mem_append.1 hc with hc | hc
    · exact List.mem_takeWhile_imp hc
    · exact h c hc
  · intro h c hc
    exact h c ((List.dropWhile_sublist jsWS).subset hc)

theorem strFalsy_eq_true_iff {o : Option FieldVal} :
    strFalsy o = true ↔ o = none ∨ o = some (.str []) := by
  cases o with
  | none => simp [strFalsy]
  | some v =>
    cases v with
    | str s => simp [strFalsy, FieldVal.truthy, List.isEmpty_iff]
    | obj raw => simp [strFalsy, FieldVal.truthy]

theorem strFalsy_eq_false_iff {o : Option FieldVal} :
    strFalsy o = false ↔ ∃ v, o = some v ∧ v.truthy = true := by
  cases o with
  | none => simp [strFalsy]
  | some v => simp [strFalsy]

theorem processAtomEntry_eq_of_none {e : Entry} (hs : e.summary = none) :
    processAtomEntry e = e := by
  unfold processAtomEntry
  rw [hs]

theorem processAtomEntry_eq_of_empty {e : Entry} (hs : e.summary = some (.str [])) :
    processAtomEntry e = e := by
  unfold processAtomEntry
  rw [hs]
  simp [FieldVal.truthy]

/-- The entry-skipping behavior of the `typeof` ladder: an object-form summary
(an attribute-bearing or element-bearing `summary` element) is truthy but
yields the empty source text, so the entry is left untouched. -/
theorem processAtomEntry_eq_of_obj {e : Entry} {raw : Xml}
    (hs : e.summary = some (.obj raw)) : processAtomEntry e = e := by
  unfold processAtomEntry
  rw [hs]
  simp [FieldVal.truthy, FieldVal.srcText]

/-- Full characterization of the Atom per-entry rewrite on a truthy
plain-string summary. -/
theorem processAtomEntry_eq_of_summary {e : Entry} {s : List Char}
    (hs : e.summary = some (.str s)) (hne : s ≠ []) :
    processAtomEntry e = { e with
      summary := some (.str (stripHtmlTags (splitAtFirstParagraph s).1)),
      content := if (splitAtFirstParagraph s).2 = [] then e.content
        else some (.written (splitAtFirstParagraph s).2
          (if detectContentType (splitAtFirstParagraph s).2 = .text then CType.html
           else detectContentType (splitAtFirstParagraph s).2).label) } := by
  have hie : s.isEmpty = false := by simp [List.isEmpty_iff, hne]
  unfold processAtomEntry
  rw [hs]
  simp only [FieldVal.truthy, hie, Bool.not_false, Bool.not_true, Bool.false_eq_true,
    if_false, FieldVal.srcText]
  rw [if_neg hne]
  by_cases hsp : (splitAtFirstParagraph s).2 = []
  · rw [if_pos hsp, if_pos hsp]
  · rw [if_neg hsp, if_neg hsp]

theorem processRssItem_eq_of_falsy {e : Entry} (h1 : strFalsy e.summary = true)
    (h2 : strFalsy e.description = true) : processRssItem e = e := by
  have hs := strFalsy_eq_true_iff.1 h1
  have hd := strFalsy_eq_true_iff.1 h2
  unfold processRssItem
  rcases hd with hd | hd <;> rcases hs with hs | hs <;>
    simp [hs, hd, strFalsy, FieldVal.truthy]

/-- An object-form summary is truthy, so the description is never copied over
it, and the `typeof` ladder then skips the item. -/
theorem processRssItem_eq_of_obj_summary {e : Entry} {raw : Xml}
    (hs : e.summary = some (.obj raw)) : processRssItem e = e := by
  have hst : strFalsy e.summary = false := by simp [hs, strFalsy, FieldVal.truthy]
  unfold processRssItem
  rw [hst]
  simp only [Bool.false_and, Bool.false_eq_true, if_false]
  rw [hs]
  simp [FieldVal.truthy, FieldVal.srcText]

/-- A falsy summary next to an object-form description: the copy line fires
(objects are truthy) and then the `typeof` ladder yields the empty source
text, so the item keeps the copied object as its summary and nothing else
changes. -/
theorem processRssItem_eq_of_obj_description {e : Entry} {raw : Xml}
    (h1 : strFalsy e.summary = true) (hd : e.description = some (.obj raw)) :
    processRssItem e = { e with summary := some (.obj raw) } := by
  have hdt : (!strFalsy e.description) = true := by simp [hd, strFalsy, FieldVal.truthy]
  unfold processRssItem
  rw [h1, hdt]
  simp only [Bool.true_and, eq_self_iff_true, if_true]
  rw [hd]
  simp [FieldVal.truthy, FieldVal.srcText]

/-- Full characterization of the RSS per-item rewrite when a plain-string
summary source exists: a truthy string summary, or else a truthy string
description behind a falsy summary. -/
theorem processRssItem_eq_of_source {e : Entry} {s : List Char}
    (hcase : (e.summary = some (.str s) ∧ s ≠ []) ∨
      (strFalsy e.summary = true ∧ e.description = some (.str s) ∧ s ≠ [])) :
    processRssItem e = { e with
      summary := some (.str (stripHtmlTags (splitAtFirstParagraph s).1)),
      description := some (.str (stripHtmlTags (splitAtFirstParagraph s).1)),
      contentEncoded := if (splitAtFirstParagraph s).2 = [] then e.contentEncoded
        else some (.str (splitAtFirstParagraph s).2) } := by
  have hie : s.isEmpty = false := by
    simp [List.isEmpty_iff]
    rcases hcase with ⟨-, hne⟩ | ⟨-, -, hne⟩ <;> exact hne
  have hne : s ≠ [] := by
    rcases hcase with ⟨-, hne⟩ | ⟨-, -, hne⟩ <;> exact hne
  rcases hcase with ⟨hs, -⟩ | ⟨hf, hd, -⟩
  · have hcopy : strFalsy e.summary = false := by
      simp [hs, strFalsy, FieldVal.truthy, hie]
    unfold processRssItem
    rw [hcopy]
    simp only [Bool.false_and, Bool.false_eq_true, if_false]
    rw [hs]
    simp only [FieldVal.truthy, hie, Bool.not_false, Bool.not_true, Bool.false_eq_true,
      if_false, FieldVal.srcText]
    rw [if_neg hne]
    by_cases hsp : (splitAtFirstParagraph s).2 = []
    · rw [if_pos hsp, if_pos hsp]
    · rw [if_neg hsp, if_neg hsp]
  · have hdt : (!strFalsy e.description) = true := by
      simp [hd, strFalsy, FieldVal.truthy, hie]
    unfold processRssItem
    rw [hf, hdt]
    simp only [Bool.true_and, eq_self_iff_true, if_true]
    rw [hd]
    simp only [FieldVal.truthy, hie, Bool.not_false, Bool.not_true, Bool.false_eq_true,
      if_false, FieldVal.srcText]
    rw [if_neg hne]
    by_cases hsp : (splitAtFirstParagraph s).2 = []
    · rw [if_pos hsp, if_pos hsp]
    · rw [if_neg hsp, if_neg hsp]

/-- C1 counterexample: an entry whose summary element carries an attribute
(the standard Atom `<summary type="html">`) parses to the object form; its
text holds two paragraphs of markup, yet the program leaves the entry
unsplit, with markup intact and no content field - falsifying the claimed
invariant for a non-empty original description. -/
theorem c1_counterexample :
    processAtomEntry ⟨some (.obj (Xml.elem "summary".data [(typeKey, CType.html.label)]
        [Xml.txt "<p>A</p><p>B</p>".data])), none, none, none, [], []⟩ =
      ⟨some (.obj (Xml.elem "summary".data [(typeKey, CType.html.label)]
        [Xml.txt "<p>A</p><p>B</p>".data])), none, none, none, [], []⟩ ∧
    (splitAtFirstParagraph "<p>A</p><p>B</p>".data).2 = "<p>B</p>".data ∧
    stripHtmlTags (splitAtFirstParagraph "<p>A</p><p>B</p>".data).1 = "A".data :=
  ⟨rfl, by decide, by decide⟩

/-- C1 (amended): the invariant holds for entries/items whose descriptive
element parses to a plain string - attribute-less with no element children.
An element with attributes or element children parses to the object form; the
code's `typeof` ladder then yields an empty source text and the entry is left
unmodified with its markup intact (on the RSS path, a falsy summary is still
overwritten by a truthy description object first).  Entries whose descriptive
text is empty, whitespace-only (turned into the empty string by the trimming
parse) or absent are left unmodified with no content field, as claimed. -/
theorem c1_description_invariant :
    (∀ o : List Char, jsTrim o = [] ↔ ∀ c ∈ o, jsWS c = true) ∧
    (∀ e : Entry, e.summary = none → processAtomEntry e = e) ∧
    (∀ e : Entry, e.summary = some (.str []) → processAtomEntry e = e) ∧
    (∀ (e : Entry) (raw : Xml), e.summary = some (.obj raw) → processAtomEntry e = e) ∧
    (∀ (e : Entry) (s : List Char), e.summary = some (.str s) → s ≠ [] →
      (processAtomEntry e).summary = some (.str (stripHtmlTags (splitAtFirstParagraph s).1)) ∧
      ((splitAtFirstParagraph s).2 ≠ [] → (processAtomEntry e).content =
        some (.written (splitAtFirstParagraph s).2
          (if detectContentType (splitAtFirstParagraph s).2 = .text then CType.html
           else detectContentType (splitAtFirstParagraph s).2).label)) ∧
      ((splitAtFirstParagraph s).2 = [] → (processAtomEntry e).content = e.content)) ∧
    (∀ e : Entry, strFalsy e.summary = true → strFalsy e.description = true →
      processRssItem e = e) ∧
    (∀ (e : Entry) (raw : Xml), e.summary = some (.obj raw) → processRssItem e = e) ∧
    (∀ (e : Entry) (raw : Xml), strFalsy e.summary = true →
      e.description = some (.obj raw) →
      processRssItem e = { e with summary := some (.obj raw) }) ∧
    (∀ (e : Entry) (s : List Char),
      (e.summary = some (.str s) ∧ s ≠ []) ∨
        (strFalsy e.summary = true ∧ e.description = some (.str s) ∧ s ≠ []) →
      (processRssItem e).summary = some (.str (stripHtmlTags (splitAtFirstParagraph s).1)) ∧
      (processRssItem e).description =
        some (.str (stripHtmlTags (splitAtFirstParagraph s).1)) ∧
      ((splitAtFirstParagraph s).2 ≠ [] →
        (processRssItem e).contentEncoded = some (.str (splitAtFirstParagraph s).2)) ∧
      ((splitAtFirstParagraph s).2 = [] →
        (processRssItem e).contentEncoded = e.contentEncoded)) := by
  refine ⟨fun _ => jsTrim_eq_nil_iff, ?_, ?_, ?_, ?_, ?_, ?_, ?_, ?_⟩
  · intro e he
    exact processAtomEntry_eq_of_none he
  · intro e he
    exact processAtomEntry_eq_of_empty he
  · intro e raw he
    exact processAtomEntry_eq_of_obj he
  · intro e s hs hne
    rw [processAtomEntry_eq_of_summary hs hne]
    by_cases hsp : (splitAtFirstParagraph s).2 = []
    · rw [if_pos hsp]
      exact ⟨rfl, fun h => absurd hsp h, fun _ => rfl⟩
    · rw [if_neg hsp]
      exact ⟨rfl, fun _ => rfl, fun h => absurd h hsp⟩
  · intro e h1 h2
    exact processRssItem_eq_of_falsy h1 h2
  · intro e raw hs
    exact processRssItem_eq_of_obj_summary hs
  · intro e raw h1 hd
    exact processRssItem_eq_of_obj_description h1 hd
  · intro e s hcase
    rw [processRssItem_eq_of_source hcase]
    by_cases hsp : (splitAtFirstParagraph s).2 = []
    · rw [if_pos hsp]
      exact ⟨rfl, rfl, fun h => absurd hsp h, fun _ => rfl⟩
    · rw [if_neg hsp]
      exact ⟨rfl, rfl, fun _ => rfl, fun h => absurd h hsp⟩

/-- C1 witness: the amended invariant evaluated through the theorem at
concrete entries - a whitespace-only original, a skipped object-form summary,
a split plain-string summary, and a description-only RSS item. -/
theorem c1_witness :
    (jsTrim "  \n ".data = [] ↔ ∀ c ∈ "  \n ".data, jsWS c = true) ∧
    processAtomEntry ⟨some (.str []), none, none, none, [], []⟩ =
      ⟨some (.str []), none, none, none, [], []⟩ ∧
    processAtomEntry ⟨some (.obj (Xml.txt "A\n\nB".data)), none, none, none, [], []⟩ =
      ⟨some (.obj (Xml.txt "A\n\nB".data)), none, none, none, [], []⟩ ∧
    (processAtomEntry ⟨some (.str "A\n\nB".data), none, none, none, [], []⟩).summary =
      some (.str (stripHtmlTags (splitAtFirstParagraph "A\n\nB".data).1)) ∧
    (processRssItem ⟨none, some (.str "A\n\nB".data), none, none, [], []⟩).description =
      some (.str (stripHtmlTags (splitAtFirstParagraph "A\n\nB".data).1)) := by
  refine ⟨c1_description_invariant.1 _, ?_, ?_, ?_, ?_⟩
  · exact c1_description_invariant.2.2.1 ⟨some (.str []), none, none, none, [], []⟩ rfl
  · exact c1_description_invariant.2.2.2.1
      ⟨some (.obj (Xml.txt "A\n\nB".data)), none, none, none, [], []⟩
      (Xml.txt "A\n\nB".data) rfl
  · exact (c1_description_invariant.2.2.2.2.1
      ⟨some (.str "A\n\nB".data), none, none, none, [], []⟩
      "A\n\nB".data rfl (by decide)).1
  · exact (c1_description_invariant.2.2.2.2.2.2.2.2
      ⟨none, some (.str "A\n\nB".data), none, none, [], []⟩
      "A\n\nB".data (Or.inr ⟨rfl, rfl, by decide⟩)).2.1

/-- C4 counterexample: an entry whose summary element carries an attribute
parses to the object form and is skipped whole, although its text splits with
a non-empty remainder - falsifying the universal clause of the claim. -/
theorem c4_counterexample :
    processAtomEntry ⟨some (.obj (Xml.elem "summary".data [("class".data, "x".data)]
        [Xml.txt "<p>A</p><p>B</p>".data])), none, none, none, [], []⟩ =
      ⟨some (.obj (Xml.elem "summary".data [("class".data, "x".data)]
        [Xml.txt "<p>A</p><p>B</p>".data])), none, none, none, [], []⟩ ∧
    (splitAtFirstParagraph "<p>A</p><p>B</p>".data).2 ≠ [] :=
  ⟨rfl, by decide⟩

/-- C4 (amended): an Atom entry whose summary parses to a non-empty plain
string (an attribute-less summary element) and splits with a non-empty
remainder gets `summary := strip(firstParagraph)` and a `content` element
whose `type` attribute is the classifier's label with `text` replaced by
`html` and whose body is the remainder verbatim; entries whose summary
element parses to the object form are skipped.  Concretely, the entry with
parsed summary `<p>A</p><p>B</p>` comes out with summary `A` and content
`type="html"`, body `<p>B</p>`. -/
theorem c4_atom_split :
    (∀ (e : Entry) (s : List Char), e.summary = some (.str s) → s ≠ [] →
      (splitAtFirstParagraph s).2 ≠ [] →
      (processAtomEntry e).summary = some (.str (stripHtmlTags (splitAtFirstParagraph s).1)) ∧
      (processAtomEntry e).content = some (.written (splitAtFirstParagraph s).2
        (if detectContentType (splitAtFirstParagraph s).2 = .text then CType.html
         else detectContentType (splitAtFirstParagraph s).2).label)) ∧
    processAtomEntry ⟨some (.str "<p>A</p><p>B</p>".data), none, none, none, [], []⟩ =
      ⟨some (.str "A".data), none, some (.written "<p>B</p>".data CType.html.label),
        none, [], []⟩ := by
  constructor
  · intro e s hs hne hsp
    rw [processAtomEntry_eq_of_summary hs hne, if_neg hsp]
    exact ⟨rfl, rfl⟩
  · rfl

/-- C4 witness: the general clause applied to the Scenario A entry. -/
theorem c4_witness :
    (processAtomEntry ⟨some (.str "<p>A</p><p>B</p>".data),
        none, none, none, [], []⟩).summary =
      some (.str (stripHtmlTags (splitAtFirstParagraph "<p>A</p><p>B</p>".data).1)) ∧
    (processAtomEntry ⟨some (.str "<p>A</p><p>B</p>".data),
        none, none, none, [], []⟩).content =
      some (.written (splitAtFirstParagraph "<p>A</p><p>B</p>".data).2
        (if detectContentType (splitAtFirstParagraph "<p>A</p><p>B</p>".data).2 = .text
         then CType.html
         else detectContentType (splitAtFirstParagraph "<p>A</p><p>B</p>".data).2).label) :=
  c4_atom_split.1 ⟨some (.str "<p>A</p><p>B</p>".data), none, none, none, [], []⟩
    "<p>A</p><p>B</p>".data rfl (by decide) (by decide)

theorem setKey_of_getKey_none {k v : List Char}
    {attrs : List (List Char × List Char)} (h : getKey k attrs = none) :
    setKey k v attrs = attrs ++ [(k, v)] := by
  induction attrs with
  | nil => rfl
  | cons kv rest ih =>
    unfold getKey at h
    unfold setKey
    by_cases hk : kv.1 = k
    · rw [if_pos hk] at h
      cases h
    · rw [if_neg hk] at h
      cases kv
      simp only at hk
      rw [if_neg hk, ih h]
      rfl

theorem countP_zero_of_getKey_none {k : List Char}
    {attrs : List (List Char × List Char)} (h : getKey k attrs = none) :
    attrs.countP (fun kv => kv.1 = k) = 0 := by
  induction attrs with
  | nil => rfl
  | cons kv rest ih =>
    unfold getKey at h
    by_cases hk : kv.1 = k
    · rw [if_pos hk] at h
      cases h
    · rw [if_neg hk] at h
      rw [List.countP_cons]
      simp [hk, ih h]

/-- C3 counterexample: an RSS item with no `summary` and a `description`
element carrying an attribute: the description parses to the object form, so
the copy line writes the object over the summary, and the `typeof` ladder
then yields the empty source text - the description is never rewritten and no
`content:encoded` appears, although its text splits with a non-empty
remainder. -/
theorem c3_counterexample :
    processRssItem ⟨none, some (.obj (Xml.elem "description".data
        [("foo".data, "bar".data)] [Xml.txt "<p>A</p><p>B</p>".data])),
        none, none, [], []⟩ =
      ⟨some (.obj (Xml.elem "description".data [("foo".data, "bar".data)]
          [Xml.txt "<p>A</p><p>B</p>".data])),
        some (.obj (Xml.elem "description".data [("foo".data, "bar".data)]
          [Xml.txt "<p>A</p><p>B</p>".data])),
        none, none, [], []⟩ ∧
    (splitAtFirstParagraph "<p>A</p><p>B</p>".data).2 ≠ [] :=
  ⟨rfl, by decide⟩

/-- C3 (amended): an RSS item with a falsy `summary` and a `description` that
parses to a non-empty plain string takes the description as summary source;
the tag-stripped first paragraph is written to BOTH `summary` and
`description`, a non-empty remainder goes verbatim to `content:encoded`
(serialized as a literal CDATA block), and the `rss` root gains
`xmlns:content` = the RSS content-module URI exactly once when absent,
independent of how many items qualify.  A description that parses to the
object form (attributes or element children) is only copied over the summary;
nothing is split or rewritten for that item. -/
theorem c3_rss_description_sync :
    (∀ (e : Entry) (s : List Char), strFalsy e.summary = true →
      e.description = some (.str s) → s ≠ [] →
      (processRssItem e).summary = some (.str (stripHtmlTags (splitAtFirstParagraph s).1)) ∧
      (processRssItem e).description =
        some (.str (stripHtmlTags (splitAtFirstParagraph s).1)) ∧
      ((splitAtFirstParagraph s).2 ≠ [] →
        (processRssItem e).contentEncoded = some (.str (splitAtFirstParagraph s).2))) ∧
    (∀ (e : Entry) (raw : Xml), strFalsy e.summary = true →
      e.description = some (.obj raw) →
      processRssItem e = { e with summary := some (.obj raw) }) ∧
    (∀ attrs chanAttrs items chanRest rssRest, items ≠ [] →
      processFeedDoc (.rss attrs chanAttrs items chanRest rssRest) =
        some (.rss (ensureContentNs attrs) chanAttrs (items.map processRssItem)
          chanRest rssRest)) ∧
    (∀ attrs, getKey contentNsKey attrs = none →
      ensureContentNs attrs = attrs ++ [(contentNsKey, contentNsUri)] ∧
      (ensureContentNs attrs).countP (fun kv => kv.1 = contentNsKey) = 1) ∧
    (∀ attrs v, getKey contentNsKey attrs = some v → v ≠ [] →
      ensureContentNs attrs = attrs) ∧
    (∀ (e : Entry) (v : List Char), e.contentEncoded = some (.str v) →
      ∃ pre post, renderEntry "item".data e =
        pre ++ ("<![CDATA[".data ++ v ++ "]]>".data) ++ post) := by
  refine ⟨?_, ?_, ?_, ?_, ?_, ?_⟩
  · intro e s h1 hd hne
    rw [processRssItem_eq_of_source (Or.inr ⟨h1, hd, hne⟩)]
    refine ⟨rfl, rfl, ?_⟩
    intro hsp
    rw [if_neg hsp]
  · intro e raw h1 hd
    exact processRssItem_eq_of_obj_description h1 hd
  · intro attrs chanAttrs items chanRest rssRest hne
    simp only [processFeedDoc]
    rw [if_neg (by simpa [List.isEmpty_iff] using hne)]
  · intro attrs h
    unfold ensureContentNs
    rw [h]
    change setKey contentNsKey contentNsUri attrs = _ ∧ _
    rw [setKey_of_getKey_none h]
    refine ⟨rfl, ?_⟩
    rw [List.countP_append, countP_zero_of_getKey_none h]
    rfl
  · intro attrs v h hne
    unfold ensureContentNs
    rw [h]
    change (if v = [] then setKey contentNsKey contentNsUri attrs else attrs) = attrs
    rw [if_neg hne]
  · intro e v h
    unfold renderEntry
    rw [h]
    refine ⟨('<' :: ("item".data ++ renderAttrs e.attrs ++ '>' :: []))
      ++ renderXmlList e.rest
      ++ (match e.summary with | some w => renderFieldVal "summary".data w | none => [])
      ++ (match e.description with
          | some w => renderFieldVal "description".data w | none => [])
      ++ (match e.content with | some cn => renderContentNode cn | none => [])
      ++ ('<' :: ("content:encoded".data ++ renderAttrs [] ++ '>' :: [])),
      ('<' :: '/' :: ("content:encoded".data ++ '>' :: []))
        ++ '<' :: '/' :: ("item".data ++ '>' :: []), ?_⟩
    simp [renderEncodedVal, renderCDataField]

/-- C3 witness: the theorem applied to a concrete item with only a
plain-string description holding two paragraphs, and to a concrete attribute
list without the namespace. -/
theorem c3_witness :
    (processRssItem ⟨none, some (.str "<p>A</p>rest".data),
        none, none, [], []⟩).description =
      some (.str (stripHtmlTags (splitAtFirstParagraph "<p>A</p>rest".data).1)) ∧
    ensureContentNs [("version".data, "2.0".data)] =
      [("version".data, "2.0".data)] ++ [(contentNsKey, contentNsUri)] := by
  constructor
  · exact (c3_rss_description_sync.1
      ⟨none, some (.str "<p>A</p>rest".data), none, none, [], []⟩
      "<p>A</p>rest".data rfl rfl (by decide)).2.1
  · exact (c3_rss_description_sync.2.2.2.1 [("version".data, "2.0".data)] rfl).1

/-- C10 counterexample: an RSS document whose only item is a bare `<item/>`.
The lone item parses to the falsy empty string, the `rss.channel.item` probe
fails, the document is classified unknown dialect and the output carries no
`xmlns:content` attribute - falsifying the claim for an RSS feed with at
least one item. -/
theorem c10_counterexample :
    transform "<rss><channel><item/></channel></rss>" =
      .ok "<?xml version=\"1.0\" encoding=\"UTF-8\"?><rss><channel><item/></channel></rss>" ∧
    findCI contentNsKey
      "<?xml version=\"1.0\" encoding=\"UTF-8\"?><rss><channel><item/></channel></rss>".data =
      none ∧
    toFeedDoc (Xml.elem "rss".data []
        [Xml.elem "channel".data [] [Xml.elem "item".data [] []]]) =
      .other (Xml.elem "rss".data []
        [Xml.elem "channel".data [] [Xml.elem "item".data [] []]]) :=
  ⟨rfl, by decide, rfl⟩

/-- C10 (amended): whenever the document actually classifies as RSS - which
requires the `rss.channel.item` probe to be truthy, hence a non-empty item
list - the transform applies `ensureContentNs` to the root attributes: an
absent `xmlns:content` is appended with the content-module URI, whether or
not any item produces a `content:encoded` field.  An RSS document whose item
probe is falsy (no items, or a lone item parsing to the empty string) never
reaches the namespace block. -/
theorem c10_namespace_on_truthy_items :
    (∀ (attrs chanAttrs : List (List Char × List Char)) (items : List Entry)
      (chanRest rssRest : List Xml), items ≠ [] →
      getKey contentNsKey attrs = none →
      processFeedDoc (.rss attrs chanAttrs items chanRest rssRest) =
        some (.rss (attrs ++ [(contentNsKey, contentNsUri)]) chanAttrs
          (items.map processRssItem) chanRest rssRest)) ∧
    (∀ root attrs chanAttrs items chanRest rssRest,
      toFeedDoc root = .rss attrs chanAttrs items chanRest rssRest →
      items ≠ []) := by
  constructor
  · intro attrs chanAttrs items chanRest rssRest hne habs
    simp only [processFeedDoc]
    rw [if_neg (by simpa [List.isEmpty_iff] using hne)]
    unfold ensureContentNs
    rw [habs]
    rw [show (match (none : Option (List Char)) with
      | some v => if v = [] then setKey contentNsKey contentNsUri attrs else attrs
      | none => setKey contentNsKey contentNsUri attrs) =
        setKey contentNsKey contentNsUri attrs from rfl]
    rw [setKey_of_getKey_none habs]
  · intro root attrs chanAttrs items chanRest rssRest h
    cases root with
    | txt s => simp [toFeedDoc] at h
    | elem tag rattrs children =>
      by_cases hf : tag = "feed".data
      · subst hf
        by_cases ht : xmlValueTruthy (Xml.elem "feed".data rattrs children) = true
        · simp [toFeedDoc, ht] at h
        · simp [toFeedDoc, ht] at h
      · by_cases hr : tag = "rss".data
        · subst hr
          cases hch : children.filter (hasTag "channel".data) with
          | nil => simp [toFeedDoc, hf, hch] at h
          | cons chan tl =>
            cases tl with
            | cons x xs => simp [toFeedDoc, hf, hch] at h
            | nil =>
              cases chan with
              | txt s => simp [toFeedDoc, hf, hch] at h
              | elem ctag cAttrs cChildren =>
                by_cases hp :
                    itemProbe (cChildren.filter (hasTag "item".data)) = true
                · simp only [toFeedDoc, hch, hp] at h
                  simp [hf] at h
                  obtain ⟨-, -, hi, -, -⟩ := h
                  intro hmap
                  rw [hmap] at hi
                  cases hc : cChildren.filter (hasTag "item".data) with
                  | nil =>
                    rw [hc] at hp
                    simp [itemProbe] at hp
                  | cons a l =>
                    rw [hc] at hi
                    exact List.noConfusion hi
                · simp [toFeedDoc, hf, hch, hp] at h
        · simp [toFeedDoc, hf, hr] at h

/-- C10 witness: the namespace clause evaluated through the theorem at a
single truthy item with a one-paragraph description (so no `content:encoded`
is written) and an attribute list without the namespace. -/
theorem c10_witness :
    processFeedDoc (.rss [] []
        [⟨none, some (.str "solo".data), none, none, [], []⟩] [] []) =
      some (.rss ([] ++ [(contentNsKey, contentNsUri)]) []
        ([⟨none, some (.str "solo".data), none, none, [], []⟩].map processRssItem)
        [] []) :=
  c10_namespace_on_truthy_items.1 [] []
    [⟨none, some (.str "solo".data), none, none, [], []⟩] [] []
    (List.cons_ne_nil _ _) rfl

/-- C8: the transform is a frame over everything but the descriptive fields -
per entry, every field other than `summary`/`description`/`content`
(`content:encoded` included, the RSS spelling of the content field) is
untouched; per document, attributes (up to the RSS namespace addition),
channel fields and feed-level fields are carried over unchanged; and the
serialized output always opens with the UTF-8 XML declaration. -/
theorem c8_untouched_fields_roundtrip :
    (∀ e : Entry, (processAtomEntry e).rest = e.rest ∧
      (processAtomEntry e).attrs = e.attrs ∧
      (processAtomEntry e).description = e.description ∧
      (processAtomEntry e).contentEncoded = e.contentEncoded) ∧
    (∀ e : Entry, (processRssItem e).rest = e.rest ∧
      (processRssItem e).attrs = e.attrs ∧
      (processRssItem e).content = e.content) ∧
    (∀ attrs entries rest d, processFeedDoc (.atom attrs entries rest) = some d →
      d = .atom attrs (entries.map processAtomEntry) rest) ∧
    (∀ attrs chanAttrs items chanRest rssRest d,
      processFeedDoc (.rss attrs chanAttrs items chanRest rssRest) = some d →
      (items = [] ∧ d = .rss attrs chanAttrs items chanRest rssRest) ∨
        d = .rss (ensureContentNs attrs) chanAttrs (items.map processRssItem)
          chanRest rssRest) ∧
    (∀ x, processFeedDoc (.other x) = some (.other x)) ∧
    (∀ d : FeedDoc, ∃ body, buildDoc d = xmlDecl ++ body) := by
  refine ⟨?_, ?_, ?_, ?_, ?_, ?_⟩
  · intro e
    cases hs : e.summary with
    | none => rw [processAtomEntry_eq_of_none hs]; exact ⟨rfl, rfl, rfl, rfl⟩
    | some v =>
      cases v with
      | str s =>
        by_cases hse : s = []
        · subst hse
          rw [processAtomEntry_eq_of_empty hs]
          exact ⟨rfl, rfl, rfl, rfl⟩
        · rw [processAtomEntry_eq_of_summary hs hse]
          exact ⟨rfl, rfl, rfl, rfl⟩
      | obj raw =>
        rw [processAtomEntry_eq_of_obj hs]
        exact ⟨rfl, rfl, rfl, rfl⟩
  · intro e
    cases hb : strFalsy e.summary with
    | false =>
      obtain ⟨v, hs, hv⟩ := strFalsy_eq_false_iff.1 hb
      cases v with
      | str s =>
        have hne : s ≠ [] := by
          simpa [FieldVal.truthy, List.isEmpty_iff] using hv
        rw [processRssItem_eq_of_source (Or.inl ⟨hs, hne⟩)]
        exact ⟨rfl, rfl, rfl⟩
      | obj raw =>
        rw [processRssItem_eq_of_obj_summary hs]
        exact ⟨rfl, rfl, rfl⟩
    | true =>
      cases hd : strFalsy e.description with
      | true =>
        rw [processRssItem_eq_of_falsy hb hd]
        exact ⟨rfl, rfl, rfl⟩
      | false =>
        obtain ⟨v, hds, hv⟩ := strFalsy_eq_false_iff.1 hd
        cases v with
        | str s =>
          have hne : s ≠ [] := by
            simpa [FieldVal.truthy, List.isEmpty_iff] using hv
          rw [processRssItem_eq_of_source (Or.inr ⟨hb, hds, hne⟩)]
          exact ⟨rfl, rfl, rfl⟩
        | obj raw =>
          rw [processRssItem_eq_of_obj_description hb hds]
          exact ⟨rfl, rfl, rfl⟩
  · intro attrs entries rest d h
    simp only [processFeedDoc] at h
    by_cases he : entries.isEmpty = true
    · rw [if_pos he] at h
      cases h
    · rw [if_neg he] at h
      cases h
      rfl
  · intro attrs chanAttrs items chanRest rssRest d h
    simp only [processFeedDoc] at h
    by_cases he : items.isEmpty = true
    · rw [if_pos he] at h
      cases h
      exact Or.inl ⟨List.isEmpty_iff.1 he, rfl⟩
    · rw [if_neg he] at h
      cases h
      exact Or.inr rfl
  · intro x
    rfl
  · intro d
    exact ⟨_, rfl⟩

/-- C8 witness: the frame evaluated through the theorem on a concrete entry
with extra sibling fields and a concrete Atom document. -/
theorem c8_witness :
    (processAtomEntry ⟨some (.str "A\n\nB".data), none, none, none,
        [("lang".data, "en".data)], [Xml.elem "title".data [] [Xml.txt "T".data]]⟩).rest =
      [Xml.elem "title".data [] [Xml.txt "T".data]] ∧
    processFeedDoc (.other (Xml.elem "foo".data [] [])) =
      some (.other (Xml.elem "foo".data [] [])) ∧
    (∃ body, buildDoc (.other (Xml.elem "foo".data [] [])) = xmlDecl ++ body) := by
  refine ⟨?_, ?_, ?_⟩
  · exact (c8_untouched_fields_roundtrip.1 ⟨some (.str "A\n\nB".data), none, none, none,
      [("lang".data, "en".data)], [Xml.elem "title".data [] [Xml.txt "T".data]]⟩).1
  · exact c8_untouched_fields_roundtrip.2.2.2.2.1 (Xml.elem "foo".data [] [])
  · exact c8_untouched_fields_roundtrip.2.2.2.2.2 (.other (Xml.elem "foo".data [] []))

/-- C6: the transform fails with a `ParseError` carrying the parser's message
exactly when the XML collaborator rejects the input; the failure passes
through uncaught and no output string is produced in that case. -/
theorem c6_parse_error_propagation (s : String) :
    (∀ m, parseDocument s.data = .error m → transform s = .error (.parseError m)) ∧
    (∀ root, parseDocument s.data = .ok root → ∃ out, transform s = .ok out) ∧
    ((∃ m, transform s = .error (.parseError m)) ↔
      ¬ ∃ root, parseDocument s.data = .ok root) := by
  refine ⟨?_, ?_, ?_⟩
  · intro m h
    unfold transform
    rw [h]
  · intro root h
    unfold transform
    rw [h]
    change ∃ out, (match processFeedDoc (toFeedDoc root) with
      | none => Except.ok s
      | some d => Except.ok (String.mk (buildDoc d))) = Except.ok out
    cases hp : processFeedDoc (toFeedDoc root) with
    | none => exact ⟨s, rfl⟩
    | some d => exact ⟨String.mk (buildDoc d), rfl⟩
  · cases hp : parseDocument s.data with
    | error m =>
      constructor
      · rintro - ⟨root, hroot⟩
        exact Except.noConfusion hroot
      · intro _
        exact ⟨m, by unfold transform; rw [hp]⟩
    | ok root =>
      constructor
      · rintro ⟨m, hm⟩
        unfold transform at hm
        rw [hp] at hm
        have hm' : (match processFeedDoc (toFeedDoc root) with
          | none => Except.ok s
          | some d => Except.ok (String.mk (buildDoc d))) =
            Except.error (ParseError.parseError m) := hm
        cases hpd : processFeedDoc (toFeedDoc root) <;> rw [hpd] at hm' <;> cases hm'
      · intro h
        exact absurd ⟨root, rfl⟩ h

/-- C6 witness: the unclosed tag `<feed>` is rejected with the parser's
message attached, and a well-formed document yields an output. -/
theorem c6_witness :
    transform "<feed>" = .error (.parseError "unexpected end of input".data) ∧
    (∃ out, transform "<feed><title>T</title></feed>" = .ok out) := by
  constructor
  · exact (c6_parse_error_propagation "<feed>").1 "unexpected end of input".data rfl
  · exact (c6_parse_error_propagation "<feed><title>T</title></feed>").2.1 _ rfl

/-- C7 counterexample: on an unknown-dialect document, on an RSS feed with
zero items, and even on a bare `<feed/>` - whose xml2js value is the falsy
empty string, so the Atom truthiness probe fails - the transform does NOT
return its input string: it re-serializes the parsed tree, prepending the
UTF-8 declaration. -/
theorem c7_counterexample :
    transform "<foo>x</foo>" =
      .ok "<?xml version=\"1.0\" encoding=\"UTF-8\"?><foo>x</foo>" ∧
    "<?xml version=\"1.0\" encoding=\"UTF-8\"?><foo>x</foo>" ≠ "<foo>x</foo>" ∧
    transform "<rss><channel><title>T</title></channel></rss>" =
      .ok "<?xml version=\"1.0\" encoding=\"UTF-8\"?><rss><channel><title>T</title></channel></rss>" ∧
    "<?xml version=\"1.0\" encoding=\"UTF-8\"?><rss><channel><title>T</title></channel></rss>" ≠
      "<rss><channel><title>T</title></channel></rss>" ∧
    transform "<feed/>" = .ok "<?xml version=\"1.0\" encoding=\"UTF-8\"?><feed/>" ∧
    "<?xml version=\"1.0\" encoding=\"UTF-8\"?><feed/>" ≠ "<feed/>" :=
  ⟨rfl, by decide, rfl, by decide, rfl, by decide⟩

/-- C7 (amended): an Atom feed that classifies as Atom (a truthy `feed` root:
attributes, element children or text) with zero entries is returned
byte-for-byte; a document of unknown dialect - a bare falsy `<feed/>`, an RSS
document whose `rss.channel.item` probe is falsy, or anything else - is left
untouched at tree level but re-serialized, so the output is the serialization
of the parsed tree, not necessarily the input string. -/
theorem c7_unknown_or_empty (s : String) :
    (∀ root attrs rest, parseDocument s.data = .ok root →
      toFeedDoc root = .atom attrs [] rest → transform s = .ok s) ∧
    (∀ root, parseDocument s.data = .ok root → unknownDialect (toFeedDoc root) = true →
      processFeedDoc (toFeedDoc root) = some (toFeedDoc root) ∧
      transform s = .ok (String.mk (buildDoc (toFeedDoc root)))) := by
  constructor
  · intro root attrs rest hp hd
    unfold transform
    rw [hp]
    change (match processFeedDoc (toFeedDoc root) with
      | none => Except.ok s
      | some d => Except.ok (String.mk (buildDoc d))) = Except.ok s
    rw [hd]
    simp [processFeedDoc]
  · intro root hp hu
    have hpd : processFeedDoc (toFeedDoc root) = some (toFeedDoc root) := by
      cases hfd : toFeedDoc root with
      | atom attrs entries rest =>
        rw [hfd] at hu
        simp [unknownDialect] at hu
      | rss attrs chanAttrs items chanRest rssRest =>
        rw [hfd] at hu
        simp only [unknownDialect] at hu
        simp only [processFeedDoc]
        rw [if_pos hu]
      | other x => simp [processFeedDoc]
    refine ⟨hpd, ?_⟩
    unfold transform
    rw [hp]
    change (match processFeedDoc (toFeedDoc root) with
      | none => Except.ok s
      | some d => Except.ok (String.mk (buildDoc d))) =
      Except.ok (String.mk (buildDoc (toFeedDoc root)))
    rw [hpd]

/-- C7 witness: a concrete entry-less Atom feed is returned unchanged; a
concrete unknown-dialect document is re-serialized unmodified. -/
theorem c7_witness :
    transform "<feed><title>T</title></feed>" = .ok "<feed><title>T</title></feed>" ∧
    transform "<a/>" = .ok (String.mk (buildDoc (toFeedDoc (Xml.elem "a".data [] [])))) := by
  constructor
  · exact (c7_unknown_or_empty "<feed><title>T</title></feed>").1
      (Xml.elem "feed".data [] [Xml.elem "title".data [] [Xml.txt "T".data]])
      [] [Xml.elem "title".data [] [Xml.txt "T".data]] rfl rfl
  · exact ((c7_unknown_or_empty "<a/>").2 (Xml.elem "a".data [] []) rfl rfl).2

/-- C9 counterexample: a successful output on which a second transform is NOT
the identity - the first pass strips the paragraph tags but leaves the
blank-line separator inside the rewritten summary, so the second pass splits
again and overwrites the content element. -/
theorem c9_counterexample :
    transform "<feed><entry><summary>&lt;p&gt;A\n\nB&lt;/p&gt;&lt;p&gt;C&lt;/p&gt;</summary></entry></feed>" =
      .ok "<?xml version=\"1.0\" encoding=\"UTF-8\"?><feed><entry><summary>A\n\nB</summary><content type=\"html\"><![CDATA[<p>C</p>]]></content></entry></feed>" ∧
    transform "<?xml version=\"1.0\" encoding=\"UTF-8\"?><feed><entry><summary>A\n\nB</summary><content type=\"html\"><![CDATA[<p>C</p>]]></content></entry></feed>" =
      .ok "<?xml version=\"1.0\" encoding=\"UTF-8\"?><feed><entry><summary>A</summary><content type=\"html\"><![CDATA[B]]></content></entry></feed>" ∧
    ("<?xml version=\"1.0\" encoding=\"UTF-8\"?><feed><entry><summary>A</summary><content type=\"html\"><![CDATA[B]]></content></entry></feed>" : String) ≠
      "<?xml version=\"1.0\" encoding=\"UTF-8\"?><feed><entry><summary>A\n\nB</summary><content type=\"html\"><![CDATA[<p>C</p>]]></content></entry></feed>" :=
  ⟨rfl, rfl, by decide⟩

/-- C9 (amended): the per-entry rewrite is a no-op on an entry whose
plain-string summary is already what a first pass produces when nothing is
left to split: non-empty, trimmed, CR-LF-free, containing no paragraph
element, no blank-line separator and no strippable tag - on the Atom path,
and on the RSS path when the description already holds the same string.
This is a per-entry sufficient condition; the transform as a whole is NOT
idempotent (see the counterexample), and no exact transform-level
characterization is asserted. -/
theorem c9_second_pass_noop (e : Entry) (s : List Char) (hne : s ≠ [])
    (h1 : jsTrim s = s) (h2 : normalizeCRLF s = s) (h3 : pMatch s = none)
    (h4 : splitNN s = [s]) (h5 : stripHtmlTags s = s) :
    (e.summary = some (.str s) → processAtomEntry e = e) ∧
    (e.summary = some (.str s) → e.description = some (.str s) →
      processRssItem e = e) := by
  have hsplit : splitAtFirstParagraph s = (s, []) := by
    unfold splitAtFirstParagraph
    rw [if_neg (by rw [h1]; exact hne)]
    simp only [h2, h3, h4]
    simp [h1]
  constructor
  · intro hs
    rw [processAtomEntry_eq_of_summary hs hne, hsplit]
    cases e with
    | mk su de co ce a r =>
      cases hs
      simp [h5]
  · intro hs hd
    rw [processRssItem_eq_of_source (Or.inl ⟨hs, hne⟩), hsplit]
    cases e with
    | mk su de co ce a r =>
      cases hs
      cases hd
      simp [h5]

/-- C9 witness: the no-op clauses evaluated through the theorem at concrete
already-rewritten entries on both paths. -/
theorem c9_witness :
    processAtomEntry ⟨some (.str "Solo paragraph".data), none, none, none, [], []⟩ =
      ⟨some (.str "Solo paragraph".data), none, none, none, [], []⟩ ∧
    processRssItem ⟨some (.str "Solo paragraph".data),
        some (.str "Solo paragraph".data), none, none, [], []⟩ =
      ⟨some (.str "Solo paragraph".data), some (.str "Solo paragraph".data),
        none, none, [], []⟩ := by
  constructor
  · exact (c9_second_pass_noop
      ⟨some (.str "Solo paragraph".data), none, none, none, [], []⟩
      "Solo paragraph".data (by decide) (by decide) (by decide) (by decide)
      (by decide) (by decide)).1 rfl
  · exact (c9_second_pass_noop
      ⟨some (.str "Solo paragraph".data), some (.str "Solo paragraph".data),
        none, none, [], []⟩
      "Solo paragraph".data (by decide) (by decide) (by decide) (by decide)
      (by decide) (by decide)).2 rfl rfl

end FeedWrangler
